import Mathlib

/-!
Verification of the agent lifecycle and distributed-state core of the
entropy-playground repository, as a shallow embedding in Lean 4.

Sources embedded here:
- src/entropy_playground/agents/base.py (AgentState, AgentHealth,
  AgentConfig.validate_name, BaseAgent.stop, BaseAgent.get_health_status,
  BaseAgent._set_state)
- src/entropy_playground/runtime/state.py (StateManager.get / set / delete /
  exists / lock / migrate_key / restore_from_backup / list_backups, and the
  AgentState helper add_to_history)
- src/entropy_playground/runtime/registry.py (AgentRegistry.register,
  AgentRegistry.validate_config)

Modelling conventions:
- Python strings are lists of characters, Redis stores are association lists
  from keys to stored text, and JSON-serializable Python values are the
  inductive JValue below.  json.dumps / json.loads are embedded as the
  executable jdump / jparse, matching the stdlib defaults used by the code
  (separators of comma-space and colon-space, escape sequences for quote,
  backslash and control characters; floats are outside the embedding, and
  non-ASCII characters are printed verbatim rather than \uXXXX-escaped, which
  does not affect parse-of-print behaviour).
- Wall-clock time, asyncio scheduling and the network are outside the
  embedding; a lock acquisition attempt is abstracted to its boolean outcome
  ("acquire() returned True within blocking_timeout").
-/

/-! ## agents/base.py: lifecycle states -/

/-- Agent lifecycle states (class AgentState in agents/base.py). -/
inductive AgentState where
  | initializing
  | ready
  | running
  | paused
  | stopping
  | stopped
  | error
deriving DecidableEq, Repr

/-- Agent health states (class AgentHealth in agents/base.py). -/
inductive AgentHealth where
  | healthy
  | degraded
  | unhealthy
deriving DecidableEq, Repr

/-- BaseAgent._set_state: returns the new current state together with the
transition events delivered to state-change callbacks.  When the new state
equals the old one the method returns early: no event fires and the state is
unchanged. -/
def set_state (s new : AgentState) : AgentState × List (AgentState × AgentState) :=
  if s = new then (s, []) else (new, [(s, new)])

/-- BaseAgent.stop, restricted to its state effect: a no-op when the current
state is already stopped, and otherwise the two _set_state calls to stopping
and then stopped (task draining and the cleanup hook leave the state machine
untouched in between).  The result is the final state paired with the
transition events fired, in order. -/
def stop (s : AgentState) : AgentState × List (AgentState × AgentState) :=
  if s = AgentState.stopped then (s, [])
  else
    let r1 := set_state s AgentState.stopping
    let r2 := set_state r1.1 AgentState.stopped
    (r2.1, r1.2 ++ r2.2)

/-! ## agents/base.py: health classification -/

/-- The failed-check names computed by BaseAgent.get_health_status:
the names of the checks whose boolean is False, in order. -/
def failed_checks (checks : List (String × Bool)) : List String :=
  (checks.filter (fun nc => !nc.2)).map Prod.fst

/-- The overall health computed by BaseAgent.get_health_status from one sweep
of named boolean checks: healthy when no check failed, degraded when the
failed count is below half the total (the Python comparison
len(failed_checks) < len(checks) / 2 under real division is exactly
2 * F < K on integers), unhealthy otherwise. -/
def health_classification (checks : List (String × Bool)) : AgentHealth :=
  if failed_checks checks = [] then AgentHealth.healthy
  else if 2 * (failed_checks checks).length < checks.length then AgentHealth.degraded
  else AgentHealth.unhealthy

/-! ## agents/base.py: AgentConfig.validate_name -/

/-- Python str.isalnum on one character, on the ASCII fragment of the
alphabet: a letter or a digit.  Python's isalnum is Unicode-aware and also
accepts non-ASCII letters and digits, which this embedding does not cover,
so the C3 theorem below restricts names to ASCII characters, where this
predicate agrees with str.isalnum exactly. -/
def pyIsAlnumChar (c : Char) : Bool := c.isAlpha || c.isDigit

/-- Python str.isalnum: every character alphanumeric and the string nonempty
(the empty string is not alnum). -/
def pyIsAlnum (s : List Char) : Bool := !s.isEmpty && s.all pyIsAlnumChar

/-- v.replace("-", "").replace("_", ""): drop every hyphen and underscore. -/
def stripHyphenUnderscore (s : List Char) : List Char :=
  (s.filter (fun c => c != '-')).filter (fun c => c != '_')

/-- AgentConfig.validate_name: rejects (raises, here none) when the value is
empty or when the value stripped of hyphens and underscores is not
alphanumeric; otherwise stores the lowercased value. -/
def validate_name (v : List Char) : Option (List Char) :=
  if v.isEmpty || !pyIsAlnum (stripHyphenUnderscore v) then none
  else some (v.map Char.toLower)

/-! ## JSON values and the stdlib json.dumps / json.loads embedding -/

/-- A JSON-serializable Python value: None, bool, int, str, list, dict
(string keys, insertion-ordered).  Floats are outside the embedding. -/
inductive JValue where
  | null
  | jbool (b : Bool)
  | jint (n : Int)
  | jstr (s : List Char)
  | jarr (items : List JValue)
  | jobj (fields : List (List Char × JValue))

/-- One lowercase hexadecimal digit character, for escape sequences. -/
def hexDig (n : Nat) : Char :=
  if n < 10 then Char.ofNat (48 + n) else Char.ofNat (87 + n)

/-- json.dumps escaping of one string character: quote, backslash and the
short control escapes get a backslash form, other control characters get a
\u00XX form, and everything else is emitted verbatim. -/
def escChar (c : Char) : List Char :=
  if c = '"' then ['\\', '"']
  else if c = '\\' then ['\\', '\\']
  else if c = '\n' then ['\\', 'n']
  else if c = '\t' then ['\\', 't']
  else if c = '\r' then ['\\', 'r']
  else if c.toNat = 8 then ['\\', 'b']
  else if c.toNat = 12 then ['\\', 'f']
  else if c.toNat < 32 then ['\\', 'u', '0', '0', hexDig (c.toNat / 16), hexDig (c.toNat % 16)]
  else [c]

/-- A whole string body, escaped. -/
def escStr : List Char → List Char
  | [] => []
  | c :: cs => escChar c ++ escStr cs

/-- The decimal digit character of d < 10. -/
def digitCh (d : Nat) : Char := Char.ofNat (48 + d)

/-- The decimal digit characters of a natural number, most significant
first, as str() prints it (no leading zeros, 0 prints as "0"). -/
def decDigits (n : Nat) : List Char :=
  if n < 10 then [digitCh n] else decDigits (n / 10) ++ [digitCh (n % 10)]
decreasing_by exact Nat.div_lt_self (by omega) (by omega)

/-- str() of a Python int: an optional minus sign then decimal digits. -/
def intChars (i : Int) : List Char :=
  if i < 0 then '-' :: decDigits i.natAbs else decDigits i.natAbs

/-- A dumped string: opening quote, escaped body, closing quote. -/
def dumpStr (s : List Char) : List Char := '"' :: (escStr s ++ ['"'])

mutual
/-- json.dumps with the stdlib defaults the code relies on: item separator
comma-space, key separator colon-space. -/
def jdump : JValue → List Char
  | .null => ['n', 'u', 'l', 'l']
  | .jbool true => ['t', 'r', 'u', 'e']
  | .jbool false => ['f', 'a', 'l', 's', 'e']
  | .jint n => intChars n
  | .jstr s => dumpStr s
  | .jarr items => '[' :: (dumpItems items ++ [']'])
  | .jobj fields => '{' :: (dumpFields fields ++ ['}'])
/-- Array items joined by ", ". -/
def dumpItems : List JValue → List Char
  | [] => []
  | [x] => jdump x
  | x :: y :: rest => jdump x ++ ',' :: ' ' :: dumpItems (y :: rest)
/-- Object members, each "key": value, joined by ", ". -/
def dumpFields : List (List Char × JValue) → List Char
  | [] => []
  | [(k, v)] => dumpStr k ++ ':' :: ' ' :: jdump v
  | (k, v) :: f :: rest => dumpStr k ++ ':' :: ' ' :: jdump v ++ ',' :: ' ' :: dumpFields (f :: rest)
end

/-! json.loads, embedded as an executable recursive-descent parser over the
character list.  It is lenient where the stdlib is strict in ways a parse of
dumped output never exercises (leading zeros, raw control characters inside
strings); it rejects trailing non-whitespace like the stdlib. -/

/-- JSON whitespace. -/
def isWsCh (c : Char) : Bool := c == ' ' || c == '\t' || c == '\n' || c == '\r'

/-- Skip leading JSON whitespace. -/
def dropWs : List Char → List Char
  | [] => []
  | c :: cs => if isWsCh c then dropWs cs else c :: cs

/-- The maximal leading run of decimal digits, and the remainder. -/
def digRun : List Char → List Char × List Char
  | [] => ([], [])
  | c :: cs =>
    if c.isDigit then
      let r := digRun cs
      (c :: r.1, r.2)
    else ([], c :: cs)

/-- The value of a digit run, most significant first. -/
def digsToNat (ds : List Char) : Nat :=
  ds.foldl (fun a c => 10 * a + (c.toNat - 48)) 0

/-- Parse an optionally signed decimal integer. -/
def pInt : List Char → Option (Int × List Char)
  | [] => none
  | c :: cs =>
    if c = '-' then
      let r := digRun cs
      if r.1.isEmpty then none else some (-(Int.ofNat (digsToNat r.1)), r.2)
    else
      let r := digRun (c :: cs)
      if r.1.isEmpty then none else some (Int.ofNat (digsToNat r.1), r.2)

/-- The numeric value of one hexadecimal digit character. -/
def hexValCh (c : Char) : Option Nat :=
  if c.isDigit then some (c.toNat - 48)
  else if 97 ≤ c.toNat ∧ c.toNat ≤ 102 then some (c.toNat - 87)
  else if 65 ≤ c.toNat ∧ c.toNat ≤ 70 then some (c.toNat - 55)
  else none

/-- The character a short escape stands for. -/
def unescCh (c : Char) : Option Char :=
  if c = '"' then some '"'
  else if c = '\\' then some '\\'
  else if c = '/' then some '/'
  else if c = 'n' then some '\n'
  else if c = 't' then some '\t'
  else if c = 'r' then some '\r'
  else if c = 'b' then some (Char.ofNat 8)
  else if c = 'f' then some (Char.ofNat 12)
  else none

/-- Parse a string body after the opening quote, up to and including the
closing quote. -/
def pStrBody : List Char → Option (List Char × List Char)
  | [] => none
  | '"' :: rest => some ([], rest)
  | '\\' :: 'u' :: h1 :: h2 :: h3 :: h4 :: rest =>
    match hexValCh h1, hexValCh h2, hexValCh h3, hexValCh h4 with
    | some a, some b, some c, some d =>
      match pStrBody rest with
      | some (s, r) => some (Char.ofNat (((a * 16 + b) * 16 + c) * 16 + d) :: s, r)
      | none => none
    | _, _, _, _ => none
  | '\\' :: e :: rest =>
    match unescCh e with
    | some ch =>
      match pStrBody rest with
      | some (s, r) => some (ch :: s, r)
      | none => none
    | none => none
  | c :: rest =>
    match pStrBody rest with
    | some (s, r) => some (c :: s, r)
    | none => none

mutual
/-- Parse one JSON value.  The fuel argument only makes the recursion
manifestly total; jparse supplies more fuel than any input can consume. -/
def pVal : Nat → List Char → Option (JValue × List Char)
  | 0, _ => none
  | fuel + 1, cs =>
    match dropWs cs with
    | 'n' :: 'u' :: 'l' :: 'l' :: rest => some (.null, rest)
    | 't' :: 'r' :: 'u' :: 'e' :: rest => some (.jbool true, rest)
    | 'f' :: 'a' :: 'l' :: 's' :: 'e' :: rest => some (.jbool false, rest)
    | '"' :: rest =>
      match pStrBody rest with
      | some (s, r) => some (.jstr s, r)
      | none => none
    | '[' :: rest =>
      match dropWs rest with
      | ']' :: r => some (.jarr [], r)
      | cs2 =>
        match pItems fuel cs2 with
        | some (items, r) => some (.jarr items, r)
        | none => none
    | '{' :: rest =>
      match dropWs rest with
      | '}' :: r => some (.jobj [], r)
      | cs2 =>
        match pFields fuel cs2 with
        | some (fields, r) => some (.jobj fields, r)
        | none => none
    | cs2 =>
      match pInt cs2 with
      | some (n, r) => some (.jint n, r)
      | none => none
/-- Parse one or more comma-separated array items and the closing bracket. -/
def pItems : Nat → List Char → Option (List JValue × List Char)
  | 0, _ => none
  | fuel + 1, cs =>
    match pVal fuel cs with
    | none => none
    | some (v, r) =>
      match dropWs r with
      | ',' :: r2 =>
        match pItems fuel (dropWs r2) with
        | some (vs, r3) => some (v :: vs, r3)
        | none => none
      | ']' :: r2 => some ([v], r2)
      | _ => none
/-- Parse one or more comma-separated object members and the closing brace. -/
def pFields : Nat → List Char → Option (List (List Char × JValue) × List Char)
  | 0, _ => none
  | fuel + 1, cs =>
    match dropWs cs with
    | '"' :: r =>
      match pStrBody r with
      | none => none
      | some (k, r1) =>
        match dropWs r1 with
        | ':' :: r2 =>
          match pVal fuel (dropWs r2) with
          | none => none
          | some (v, r3) =>
            match dropWs r3 with
            | ',' :: r4 =>
              match pFields fuel (dropWs r4) with
              | some (fs, r5) => some ((k, v) :: fs, r5)
              | none => none
            | '}' :: r4 => some ([(k, v)], r4)
            | _ => none
        | _ => none
    | _ => none
end

/-- json.loads: parse one document, allowing trailing whitespace only. -/
def jparse (cs : List Char) : Option JValue :=
  match pVal (cs.length + 1) cs with
  | some (v, r) => if (dropWs r).isEmpty then some v else none
  | none => none

/-! ## Round-trip: jparse inverts jdump -/

theorem hexValCh_hexDig : ∀ d : Fin 16, hexValCh (hexDig d.val) = some d.val := by decide

theorem pStrBody_plain (c : Char) (z : List Char)
    (hq : c ≠ '"') (hb : c ≠ '\\') :
    pStrBody (c :: z) =
      match pStrBody z with
      | some (s, r) => some (c :: s, r)
      | none => none := by
  rw [pStrBody.eq_def]
  split
  · rename_i h; cases h
  · rename_i h
    injection h with h1 h2
    exact absurd h1 hq
  · rename_i h
    injection h with h1 h2
    exact absurd h1 hb
  · rename_i h
    injection h with h1 h2
    exact absurd h1 hb
  · rename_i h
    injection h with h1 h2
    subst h1; subst h2; rfl

theorem pStrBody_escChar (c : Char) (z : List Char) :
    pStrBody (escChar c ++ z) =
      match pStrBody z with
      | some (s, r) => some (c :: s, r)
      | none => none := by
  by_cases h1 : c = '"'
  · subst h1; simp [escChar, pStrBody, unescCh]
  by_cases h2 : c = '\\'
  · subst h2; simp [escChar, pStrBody, unescCh]
  by_cases h3 : c = '\n'
  · subst h3; simp [escChar, pStrBody, unescCh]
  by_cases h4 : c = '\t'
  · subst h4; simp [escChar, pStrBody, unescCh]
  by_cases h5 : c = '\r'
  · subst h5; simp [escChar, pStrBody, unescCh]
  by_cases h6 : c.toNat = 8
  · have hc : c = Char.ofNat 8 := by rw [← h6, Char.ofNat_toNat]
    rw [escChar]
    simp only [if_neg h1, if_neg h2, if_neg h3, if_neg h4, if_neg h5, if_pos h6]
    rw [hc]; simp [pStrBody, unescCh]
  by_cases h7 : c.toNat = 12
  · have hc : c = Char.ofNat 12 := by rw [← h7, Char.ofNat_toNat]
    rw [escChar]
    simp only [if_neg h1, if_neg h2, if_neg h3, if_neg h4, if_neg h5, if_neg h6, if_pos h7]
    rw [hc]; simp [pStrBody, unescCh]
  by_cases h8 : c.toNat < 32
  · rw [escChar]
    simp only [if_neg h1, if_neg h2, if_neg h3, if_neg h4, if_neg h5, if_neg h6, if_neg h7,
      if_pos h8]
    have hhi : hexValCh (hexDig (c.toNat / 16)) = some (c.toNat / 16) :=
      hexValCh_hexDig ⟨c.toNat / 16, by omega⟩
    have hlo : hexValCh (hexDig (c.toNat % 16)) = some (c.toNat % 16) :=
      hexValCh_hexDig ⟨c.toNat % 16, by omega⟩
    have h0 : hexValCh '0' = some 0 := by decide
    simp only [List.cons_append, pStrBody, h0, hhi, hlo]
    have harith : ((0 * 16 + 0) * 16 + c.toNat / 16) * 16 + c.toNat % 16 = c.toNat := by omega
    rw [harith, Char.ofNat_toNat]
    simp
  · rw [escChar]
    simp only [if_neg h1, if_neg h2, if_neg h3, if_neg h4, if_neg h5, if_neg h6, if_neg h7,
      if_neg h8]
    rw [List.singleton_append]
    exact pStrBody_plain c z h1 h2

theorem pStrBody_escStr (s : List Char) : ∀ z : List Char,
    pStrBody (escStr s ++ '"' :: z) = some (s, z) := by
  induction s with
  | nil => intro z; simp [escStr, pStrBody]
  | cons c cs ih =>
    intro z
    rw [escStr, List.append_assoc, pStrBody_escChar, ih]

theorem digitCh_spec :
    ∀ d : Fin 10, (digitCh d.val).isDigit = true ∧ (digitCh d.val).toNat = 48 + d.val := by
  decide

theorem digitCh_isDigit {d : Nat} (h : d < 10) : (digitCh d).isDigit = true :=
  (digitCh_spec ⟨d, h⟩).1

theorem digitCh_toNat {d : Nat} (h : d < 10) : (digitCh d).toNat = 48 + d :=
  (digitCh_spec ⟨d, h⟩).2

theorem decDigits_digits (n : Nat) : ∀ c ∈ decDigits n, c.isDigit = true := by
  induction n using Nat.strong_induction_on with
  | _ n ih =>
    rw [decDigits]
    by_cases h : n < 10
    · simp only [if_pos h, List.mem_singleton]
      intro c hc; subst hc
      exact digitCh_isDigit h
    · simp only [if_neg h]
      intro c hc
      rcases List.mem_append.mp hc with hm | hm
      · exact ih (n / 10) (Nat.div_lt_self (by omega) (by omega)) c hm
      · rw [List.mem_singleton] at hm; subst hm
        exact digitCh_isDigit (Nat.mod_lt _ (by omega))

theorem decDigits_ne_nil (n : Nat) : decDigits n ≠ [] := by
  rw [decDigits]
  by_cases h : n < 10 <;> simp [h]

theorem digsToNat_decDigits (n : Nat) : digsToNat (decDigits n) = n := by
  induction n using Nat.strong_induction_on with
  | _ n ih =>
    rw [decDigits]
    by_cases h : n < 10
    · simp only [if_pos h, digsToNat, List.foldl_cons, List.foldl_nil]
      rw [digitCh_toNat h]; omega
    · simp only [if_neg h, digsToNat, List.foldl_append, List.foldl_cons, List.foldl_nil]
      have hih := ih (n / 10) (Nat.div_lt_self (by omega) (by omega))
      rw [digsToNat] at hih
      rw [hih, digitCh_toNat (Nat.mod_lt _ (by omega))]
      omega

/-- A remainder that cannot extend a printed integer: empty or starting with
a non-digit.  Every JSON delimiter and the end of input qualify. -/
def noDigStart : List Char → Bool
  | [] => true
  | c :: _ => !c.isDigit

theorem digRun_stop (z : List Char) (h : noDigStart z = true) : digRun z = ([], z) := by
  match z with
  | [] => rfl
  | c :: t =>
    rw [noDigStart] at h
    rw [digRun]
    simp only [Bool.not_eq_true'] at h
    simp [h]

theorem digRun_run (ds : List Char) (hds : ∀ c ∈ ds, c.isDigit = true) (z : List Char)
    (hz : noDigStart z = true) : digRun (ds ++ z) = (ds, z) := by
  induction ds with
  | nil => simpa using digRun_stop z hz
  | cons c t ih =>
    have hc : c.isDigit = true := hds c (List.mem_cons_self _ _)
    rw [List.cons_append, digRun]
    simp only [hc, if_pos]
    rw [ih (fun x hx => hds x (List.mem_cons_of_mem _ hx))]

theorem decDigits_head (n : Nat) : ∃ c t, decDigits n = c :: t ∧ c.isDigit = true := by
  match h : decDigits n with
  | [] => exact absurd h (decDigits_ne_nil n)
  | c :: t => exact ⟨c, t, rfl, decDigits_digits n c (h ▸ List.mem_cons_self _ _)⟩

theorem isDigit_ne_minus {c : Char} (h : c.isDigit = true) : ¬(c = '-') := by
  intro he; subst he; exact absurd h (by decide)

theorem pInt_intChars (i : Int) (z : List Char) (hz : noDigStart z = true) :
    pInt (intChars i ++ z) = some (i, z) := by
  have hrun := digRun_run (decDigits i.natAbs) (decDigits_digits _) z hz
  have hne : (decDigits i.natAbs).isEmpty = false := by
    cases h : decDigits i.natAbs with
    | nil => exact absurd h (decDigits_ne_nil _)
    | cons a t => rfl
  by_cases hneg : i < 0
  · rw [intChars, if_pos hneg, List.cons_append, pInt, if_pos rfl]
    simp only [hrun, hne, digsToNat_decDigits]
    simp only [Bool.false_eq_true, if_false, Option.some.injEq, Prod.mk.injEq, and_true]
    simp only [Int.ofNat_eq_natCast]
    omega
  · obtain ⟨c, t, hct, hc⟩ := decDigits_head i.natAbs
    rw [intChars, if_neg hneg, hct, List.cons_append, pInt, if_neg (isDigit_ne_minus hc)]
    rw [← List.cons_append, ← hct]
    simp only [hrun, hne, digsToNat_decDigits]
    simp only [Bool.false_eq_true, if_false, Option.some.injEq, Prod.mk.injEq, and_true]
    simp only [Int.ofNat_eq_natCast]
    omega

theorem isDigit_not_special {c : Char} (h : c.isDigit = true) :
    isWsCh c = false ∧ c ≠ 'n' ∧ c ≠ 't' ∧ c ≠ 'f' ∧ c ≠ '"' ∧ c ≠ '[' ∧ c ≠ '{' ∧
      c ≠ ']' ∧ c ≠ '}' := by
  refine ⟨?_, ?_, ?_, ?_, ?_, ?_, ?_, ?_, ?_⟩
  · simp only [isWsCh, Bool.or_eq_false_iff, beq_eq_false_iff_ne]
    refine ⟨⟨⟨?_, ?_⟩, ?_⟩, ?_⟩ <;> (intro he; subst he; exact absurd h (by decide))
  all_goals (intro he; subst he; exact absurd h (by decide))

/-- Every dumped value starts with a character that is neither whitespace nor
a closing bracket or brace. -/
theorem head_ok {c : Char} (h : (!isWsCh c && (c != ']') && (c != '}')) = true) :
    isWsCh c = false ∧ c ≠ ']' ∧ c ≠ '}' := by
  simp only [Bool.and_eq_true, Bool.not_eq_true', bne_iff_ne] at h
  exact ⟨h.1.1, h.1.2, h.2⟩

theorem jdump_head (v : JValue) :
    ∃ c t, jdump v = c :: t ∧ isWsCh c = false ∧ c ≠ ']' ∧ c ≠ '}' := by
  cases v with
  | null => exact ⟨'n', ['u', 'l', 'l'], rfl, head_ok (by decide)⟩
  | jbool b =>
    match b with
    | true => exact ⟨'t', ['r', 'u', 'e'], rfl, head_ok (by decide)⟩
    | false => exact ⟨'f', ['a', 'l', 's', 'e'], rfl, head_ok (by decide)⟩
  | jint n =>
    by_cases hneg : n < 0
    · refine ⟨'-', decDigits n.natAbs, ?_, head_ok (by decide)⟩
      simp [jdump, intChars, hneg]
    · obtain ⟨c, t, hct, hc⟩ := decDigits_head n.natAbs
      obtain ⟨hws, _, _, _, _, _, _, hrb, hrc⟩ := isDigit_not_special hc
      refine ⟨c, t, ?_, hws, hrb, hrc⟩
      simp [jdump, intChars, hneg, hct]
  | jstr s => exact ⟨'"', escStr s ++ ['"'], rfl, head_ok (by decide)⟩
  | jarr items => exact ⟨'[', dumpItems items ++ [']'], rfl, head_ok (by decide)⟩
  | jobj fields => exact ⟨'{', dumpFields fields ++ ['}'], rfl, head_ok (by decide)⟩

theorem dropWs_cons {c : Char} (t : List Char) (h : isWsCh c = false) :
    dropWs (c :: t) = c :: t := by
  rw [dropWs]; simp [h]

/-- dropWs is the identity on dumped output followed by anything. -/
theorem dropWs_jdump (v : JValue) (x : List Char) :
    dropWs (jdump v ++ x) = jdump v ++ x := by
  obtain ⟨c, t, hct, hws, _, _⟩ := jdump_head v
  rw [hct, List.cons_append, dropWs_cons _ hws]

theorem dumpItems_cons_eq (x y : JValue) (ys : List JValue) :
    dumpItems (x :: y :: ys) = jdump x ++ ',' :: ' ' :: dumpItems (y :: ys) := by
  rw [dumpItems]

/-- dropWs is the identity on a dumped item list followed by anything. -/
theorem dropWs_dumpItems (x : JValue) (xs : List JValue) (z : List Char) :
    dropWs (dumpItems (x :: xs) ++ z) = dumpItems (x :: xs) ++ z := by
  obtain ⟨c, t, hct, hws, _, _⟩ := jdump_head x
  cases xs with
  | nil => rw [dumpItems, hct, List.cons_append, dropWs_cons _ hws]
  | cons y ys =>
    rw [dumpItems_cons_eq, hct, List.cons_append, List.cons_append, dropWs_cons _ hws]

theorem dumpFields_cons_eq (kv kw : List Char × JValue) (fs : List (List Char × JValue)) :
    dumpFields (kv :: kw :: fs) =
      dumpStr kv.1 ++ ':' :: ' ' :: jdump kv.2 ++ ',' :: ' ' :: dumpFields (kw :: fs) := by
  obtain ⟨k, v⟩ := kv
  obtain ⟨k2, v2⟩ := kw
  rw [dumpFields]

theorem dumpFields_one_eq (kv : List Char × JValue) :
    dumpFields [kv] = dumpStr kv.1 ++ ':' :: ' ' :: jdump kv.2 := by
  obtain ⟨k, v⟩ := kv
  rw [dumpFields]

/-- dropWs is the identity on a dumped member list followed by anything. -/
theorem dropWs_dumpFields (kv : List Char × JValue) (fs : List (List Char × JValue))
    (z : List Char) :
    dropWs (dumpFields (kv :: fs) ++ z) = dumpFields (kv :: fs) ++ z := by
  cases fs with
  | nil =>
    rw [dumpFields_one_eq, dumpStr]
    simp only [List.cons_append, List.append_assoc]
    rw [dropWs_cons _ (by decide)]
  | cons kw fs2 =>
    rw [dumpFields_cons_eq, dumpStr]
    simp only [List.cons_append, List.append_assoc]
    rw [dropWs_cons _ (by decide)]

theorem pItems_step (f : Nat) (cs : List Char) :
    pItems (f + 1) cs =
      match pVal f cs with
      | none => none
      | some (v, r) =>
        match dropWs r with
        | ',' :: r2 =>
          match pItems f (dropWs r2) with
          | some (vs, r3) => some (v :: vs, r3)
          | none => none
        | ']' :: r2 => some ([v], r2)
        | _ => none := rfl

theorem pFields_step (f : Nat) (cs : List Char) :
    pFields (f + 1) cs =
      match dropWs cs with
      | '"' :: r =>
        match pStrBody r with
        | none => none
        | some (k, r1) =>
          match dropWs r1 with
          | ':' :: r2 =>
            match pVal f (dropWs r2) with
            | none => none
            | some (v, r3) =>
              match dropWs r3 with
              | ',' :: r4 =>
                match pFields f (dropWs r4) with
                | some (fs, r5) => some ((k, v) :: fs, r5)
                | none => none
              | '}' :: r4 => some ([(k, v)], r4)
              | _ => none
          | _ => none
      | _ => none := rfl

theorem pVal_step (f : Nat) (cs : List Char) :
    pVal (f + 1) cs =
      match dropWs cs with
      | 'n' :: 'u' :: 'l' :: 'l' :: rest => some (.null, rest)
      | 't' :: 'r' :: 'u' :: 'e' :: rest => some (.jbool true, rest)
      | 'f' :: 'a' :: 'l' :: 's' :: 'e' :: rest => some (.jbool false, rest)
      | '"' :: rest =>
        match pStrBody rest with
        | some (s, r) => some (.jstr s, r)
        | none => none
      | '[' :: rest =>
        match dropWs rest with
        | ']' :: r => some (.jarr [], r)
        | cs2 =>
          match pItems f cs2 with
          | some (items, r) => some (.jarr items, r)
          | none => none
      | '{' :: rest =>
        match dropWs rest with
        | '}' :: r => some (.jobj [], r)
        | cs2 =>
          match pFields f cs2 with
          | some (fields, r) => some (.jobj fields, r)
          | none => none
      | cs2 =>
        match pInt cs2 with
        | some (n, r) => some (.jint n, r)
        | none => none := rfl

theorem pVal_to_pInt (f : Nat) (c : Char) (t : List Char)
    (hws : isWsCh c = false) (hn : c ≠ 'n') (ht : c ≠ 't') (hf : c ≠ 'f')
    (hq : c ≠ '"') (hlb : c ≠ '[') (hlc : c ≠ '{') :
    pVal (f + 1) (c :: t) =
      match pInt (c :: t) with
      | some (n, r) => some (.jint n, r)
      | none => none := by
  rw [pVal_step, dropWs_cons _ hws]
  split
  · rename_i h; injection h with h1 h2; exact absurd h1 hn
  · rename_i h; injection h with h1 h2; exact absurd h1 ht
  · rename_i h; injection h with h1 h2; exact absurd h1 hf
  · rename_i h; injection h with h1 h2; exact absurd h1 hq
  · rename_i h; injection h with h1 h2; exact absurd h1 hlb
  · rename_i h; injection h with h1 h2; exact absurd h1 hlc
  · rfl

theorem pVal_lb_step (f : Nat) (rest : List Char) :
    pVal (f + 1) ('[' :: rest) =
      match dropWs rest with
      | ']' :: r => some (.jarr [], r)
      | cs2 =>
        match pItems f cs2 with
        | some (items, r) => some (.jarr items, r)
        | none => none := rfl

theorem pVal_lc_step (f : Nat) (rest : List Char) :
    pVal (f + 1) ('{' :: rest) =
      match dropWs rest with
      | '}' :: r => some (.jobj [], r)
      | cs2 =>
        match pFields f cs2 with
        | some (fields, r) => some (.jobj fields, r)
        | none => none := rfl

theorem dumpItems_head (x : JValue) (xs : List JValue) :
    ∃ c t, dumpItems (x :: xs) = c :: t ∧ isWsCh c = false ∧ c ≠ ']' ∧ c ≠ '}' := by
  obtain ⟨c, t, hct, hws, hrb, hrc⟩ := jdump_head x
  cases xs with
  | nil => exact ⟨c, t, by rw [dumpItems, hct], hws, hrb, hrc⟩
  | cons y ys =>
    exact ⟨c, t ++ ',' :: ' ' :: dumpItems (y :: ys),
      by rw [dumpItems_cons_eq, hct, List.cons_append], hws, hrb, hrc⟩

theorem dumpFields_head (kv : List Char × JValue) (fs : List (List Char × JValue)) :
    ∃ t, dumpFields (kv :: fs) = '"' :: t := by
  cases fs with
  | nil => exact ⟨_, by rw [dumpFields_one_eq, dumpStr, List.cons_append]⟩
  | cons kw fs2 =>
    refine ⟨escStr kv.1 ++ '"' :: ':' :: ' ' :: jdump kv.2 ++ ',' :: ' ' :: dumpFields (kw :: fs2), ?_⟩
    rw [dumpFields_cons_eq, dumpStr]
    simp only [List.cons_append, List.append_assoc, List.singleton_append, List.nil_append]

theorem pVal_arr_items (f : Nat) (x : JValue) (xs : List JValue) (z : List Char) :
    pVal (f + 1) ('[' :: (dumpItems (x :: xs) ++ ']' :: z)) =
      match pItems f (dumpItems (x :: xs) ++ ']' :: z) with
      | some (items, r) => some (.jarr items, r)
      | none => none := by
  rw [pVal_lb_step, dropWs_dumpItems]
  obtain ⟨c, t, hct, hws, hrb, hrc⟩ := dumpItems_head x xs
  split
  · rename_i r h
    rw [hct, List.cons_append] at h
    injection h with h1 h2
    exact absurd h1 hrb
  · rfl

theorem pVal_obj_fields (f : Nat) (kv : List Char × JValue) (fs : List (List Char × JValue))
    (z : List Char) :
    pVal (f + 1) ('{' :: (dumpFields (kv :: fs) ++ '}' :: z)) =
      match pFields f (dumpFields (kv :: fs) ++ '}' :: z) with
      | some (fields, r) => some (.jobj fields, r)
      | none => none := by
  rw [pVal_lc_step, dropWs_dumpFields]
  obtain ⟨t, ht⟩ := dumpFields_head kv fs
  split
  · rename_i r h
    rw [ht, List.cons_append] at h
    injection h with h1 h2
    exact absurd h1 (by decide)
  · rfl

theorem pVal_quote_step (f : Nat) (rest : List Char) :
    pVal (f + 1) ('"' :: rest) =
      match pStrBody rest with
      | some (s, r) => some (.jstr s, r)
      | none => none := rfl

theorem intChars_head (i : Int) :
    ∃ c t, intChars i = c :: t ∧ isWsCh c = false ∧ c ≠ 'n' ∧ c ≠ 't' ∧ c ≠ 'f' ∧
      c ≠ '"' ∧ c ≠ '[' ∧ c ≠ '{' := by
  by_cases hneg : i < 0
  · refine ⟨'-', decDigits i.natAbs, ?_, by decide, by decide, by decide, by decide,
      by decide, by decide, by decide⟩
    rw [intChars, if_pos hneg]
  · obtain ⟨c, t, hct, hc⟩ := decDigits_head i.natAbs
    obtain ⟨hws, hn, ht, hf, hq, hlb, hlc, _, _⟩ := isDigit_not_special hc
    exact ⟨c, t, by rw [intChars, if_neg hneg, hct], hws, hn, ht, hf, hq, hlb, hlc⟩

mutual
theorem rt_val : ∀ (v : JValue) (fuel : Nat) (z : List Char),
    (jdump v).length < fuel → noDigStart z = true →
    pVal fuel (jdump v ++ z) = some (v, z)
  | v, 0, z, hf, hz => absurd hf (by omega)
  | .null, fuel + 1, z, hf, hz => by
    simp only [jdump, List.cons_append, List.nil_append]
    rfl
  | .jbool true, fuel + 1, z, hf, hz => by
    simp only [jdump, List.cons_append, List.nil_append]
    rfl
  | .jbool false, fuel + 1, z, hf, hz => by
    simp only [jdump, List.cons_append, List.nil_append]
    rfl
  | .jint n, fuel + 1, z, hf, hz => by
    obtain ⟨c, t, hct, hws, hn, ht, hf2, hq, hlb, hlc⟩ := intChars_head n
    have hj : jdump (.jint n) = intChars n := by simp [jdump]
    rw [hj, hct, List.cons_append, pVal_to_pInt fuel c (t ++ z) hws hn ht hf2 hq hlb hlc,
      ← List.cons_append, ← hct, pInt_intChars n z hz]
  | .jstr s, fuel + 1, z, hf, hz => by
    have hj : jdump (.jstr s) = '"' :: (escStr s ++ ['"']) := by simp [jdump, dumpStr]
    rw [hj, List.cons_append, List.append_assoc, List.singleton_append, pVal_quote_step,
      pStrBody_escStr]
  | .jarr [], fuel + 1, z, hf, hz => by
    have hj : jdump (.jarr []) = ['[', ']'] := by simp [jdump, dumpItems]
    rw [hj]
    rfl
  | .jarr (x :: xs), fuel + 1, z, hf, hz => by
    have hj : jdump (.jarr (x :: xs)) = '[' :: (dumpItems (x :: xs) ++ [']']) := by
      simp [jdump]
    have hlen : (dumpItems (x :: xs)).length + 1 < fuel := by
      rw [hj] at hf
      simp only [List.length_cons, List.length_append, List.length_singleton] at hf
      omega
    rw [hj, List.cons_append, List.append_assoc, List.singleton_append, pVal_arr_items,
      rt_items x xs fuel z hlen]
  | .jobj [], fuel + 1, z, hf, hz => by
    have hj : jdump (.jobj []) = ['{', '}'] := by simp [jdump, dumpFields]
    rw [hj]
    rfl
  | .jobj (kv :: fs), fuel + 1, z, hf, hz => by
    have hj : jdump (.jobj (kv :: fs)) = '{' :: (dumpFields (kv :: fs) ++ ['}']) := by
      simp [jdump]
    have hlen : (dumpFields (kv :: fs)).length + 1 < fuel := by
      rw [hj] at hf
      simp only [List.length_cons, List.length_append, List.length_singleton] at hf
      omega
    rw [hj, List.cons_append, List.append_assoc, List.singleton_append, pVal_obj_fields,
      rt_fields kv fs fuel z hlen]
termination_by v _ _ _ _ => sizeOf v

theorem rt_items : ∀ (x : JValue) (xs : List JValue) (fuel : Nat) (z : List Char),
    (dumpItems (x :: xs)).length + 1 < fuel →
    pItems fuel (dumpItems (x :: xs) ++ ']' :: z) = some (x :: xs, z)
  | x, xs, 0, z, hf => absurd hf (by omega)
  | x, [], fuel + 1, z, hf => by
    have hone : dumpItems [x] = jdump x := by rw [dumpItems]
    have hlen : (jdump x).length < fuel := by
      rw [hone] at hf
      omega
    rw [pItems_step, hone, rt_val x fuel (']' :: z) hlen rfl]
    have hrb : dropWs (']' :: z) = ']' :: z := dropWs_cons z (by decide)
    simp only [hrb]
  | x, y :: ys, fuel + 1, z, hf => by
    have hcons := dumpItems_cons_eq x y ys
    have hlen1 : (jdump x).length < fuel := by
      rw [hcons] at hf
      simp only [List.length_append, List.length_cons] at hf
      omega
    have hlen2 : (dumpItems (y :: ys)).length + 1 < fuel := by
      rw [hcons] at hf
      simp only [List.length_append, List.length_cons] at hf
      omega
    rw [pItems_step, hcons, List.append_assoc, List.cons_append, List.cons_append,
      rt_val x fuel (',' :: ' ' :: (dumpItems (y :: ys) ++ ']' :: z)) hlen1 rfl]
    have hsp : dropWs (' ' :: (dumpItems (y :: ys) ++ ']' :: z)) =
        dumpItems (y :: ys) ++ ']' :: z := by
      rw [dropWs]
      rw [if_pos (by decide)]
      exact dropWs_dumpItems y ys (']' :: z)
    have hcm : dropWs (',' :: ' ' :: (dumpItems (y :: ys) ++ ']' :: z)) =
        ',' :: ' ' :: (dumpItems (y :: ys) ++ ']' :: z) :=
      dropWs_cons _ (by decide)
    simp only [hcm, hsp, rt_items y ys fuel z hlen2]
termination_by x xs _ _ _ => sizeOf x + sizeOf xs

theorem rt_fields : ∀ (kv : List Char × JValue) (fs : List (List Char × JValue))
    (fuel : Nat) (z : List Char),
    (dumpFields (kv :: fs)).length + 1 < fuel →
    pFields fuel (dumpFields (kv :: fs) ++ '}' :: z) = some (kv :: fs, z)
  | kv, fs, 0, z, hf => absurd hf (by omega)
  | (k, v), [], fuel + 1, z, hf => by
    have hone := dumpFields_one_eq (k, v)
    have hlen : (jdump v).length < fuel := by
      rw [hone] at hf
      simp only [List.length_append, List.length_cons, dumpStr] at hf
      omega
    rw [pFields_step, dropWs_dumpFields, hone]
    simp only [dumpStr, List.cons_append, List.append_assoc, List.singleton_append,
      List.nil_append]
    rw [pStrBody_escStr]
    have hsp : dropWs (' ' :: (jdump v ++ '}' :: z)) = jdump v ++ '}' :: z := by
      rw [dropWs]
      rw [if_pos (by decide)]
      exact dropWs_jdump v ('}' :: z)
    have hcl : dropWs (':' :: ' ' :: (jdump v ++ '}' :: z)) =
        ':' :: ' ' :: (jdump v ++ '}' :: z) :=
      dropWs_cons _ (by decide)
    have hrb2 : dropWs ('}' :: z) = '}' :: z := dropWs_cons z (by decide)
    simp only [hcl, hsp, rt_val v fuel ('}' :: z) hlen rfl, hrb2]
  | (k, v), kw :: fs2, fuel + 1, z, hf => by
    have hcons := dumpFields_cons_eq (k, v) kw fs2
    have hlen1 : (jdump v).length < fuel := by
      rw [hcons] at hf
      simp only [List.length_append, List.length_cons, dumpStr] at hf
      omega
    have hlen2 : (dumpFields (kw :: fs2)).length + 1 < fuel := by
      rw [hcons] at hf
      simp only [List.length_append, List.length_cons, dumpStr] at hf
      omega
    rw [pFields_step, dropWs_dumpFields, hcons]
    simp only [dumpStr, List.cons_append, List.append_assoc, List.singleton_append,
      List.nil_append]
    rw [pStrBody_escStr]
    have hsp : dropWs (' ' :: (jdump v ++ ',' :: ' ' :: (dumpFields (kw :: fs2) ++ '}' :: z))) =
        jdump v ++ ',' :: ' ' :: (dumpFields (kw :: fs2) ++ '}' :: z) := by
      rw [dropWs]
      rw [if_pos (by decide)]
      exact dropWs_jdump v _
    have hsp2 : dropWs (' ' :: (dumpFields (kw :: fs2) ++ '}' :: z)) =
        dumpFields (kw :: fs2) ++ '}' :: z := by
      rw [dropWs]
      rw [if_pos (by decide)]
      exact dropWs_dumpFields kw fs2 ('}' :: z)
    have hcl : dropWs (':' :: ' ' :: (jdump v ++ ',' :: ' ' :: (dumpFields (kw :: fs2) ++ '}' :: z))) =
        ':' :: ' ' :: (jdump v ++ ',' :: ' ' :: (dumpFields (kw :: fs2) ++ '}' :: z)) :=
      dropWs_cons _ (by decide)
    have hcm : dropWs (',' :: ' ' :: (dumpFields (kw :: fs2) ++ '}' :: z)) =
        ',' :: ' ' :: (dumpFields (kw :: fs2) ++ '}' :: z) :=
      dropWs_cons _ (by decide)
    simp only [hcl, hsp,
      rt_val v fuel (',' :: ' ' :: (dumpFields (kw :: fs2) ++ '}' :: z)) hlen1 rfl,
      hcm, hsp2, rt_fields kw fs2 fuel z hlen2]
termination_by kv fs _ _ _ => sizeOf kv + sizeOf fs
end

/-- The codec round-trip: json.loads of json.dumps returns the value. -/
theorem jparse_jdump (v : JValue) : jparse (jdump v) = some v := by
  rw [jparse]
  have h := rt_val v ((jdump v).length + 1) [] (by omega) rfl
  rw [List.append_nil] at h
  rw [h]
  rfl

/-! ## runtime/state.py: the Redis store and StateManager -/

/-- The Redis keyspace: an association list from keys to stored text, each
key present at most once (the store ops below keep it that way). -/
abbrev Store := List (List Char × List Char)

/-- redis GET: the stored text under a key, if present. -/
def rget (s : Store) (k : List Char) : Option (List Char) :=
  match s with
  | [] => none
  | (k2, v) :: rest => if k2 = k then some v else rget rest k

/-- redis SET: store text under a key, replacing any previous value. -/
def rset (s : Store) (k v : List Char) : Store :=
  s.filter (fun kv => kv.1 != k) ++ [(k, v)]

/-- redis DEL. -/
def rdel (s : Store) (k : List Char) : Store :=
  s.filter (fun kv => kv.1 != k)

/-- redis EXISTS. -/
def rexists (s : Store) (k : List Char) : Bool :=
  (rget s k).isSome

/-- The keys of the store, in scan order. -/
def storeKeys (s : Store) : List (List Char) := s.map Prod.fst

/-- redis glob matching, on the fragment the code uses (literal characters,
the one-character wildcard, and the any-run wildcard).  The fuel only makes
the recursion structural; globMatch supplies more than any run consumes. -/
def globMatchF : Nat → List Char → List Char → Bool
  | 0, _, _ => false
  | _ + 1, [], ks => ks.isEmpty
  | fuel + 1, p :: ps2, ks =>
    if p = '*' then
      match ks with
      | [] => globMatchF fuel ps2 []
      | _ :: ks2 => globMatchF fuel ps2 ks || globMatchF fuel (p :: ps2) ks2
    else
      match ks with
      | [] => false
      | c :: ks2 => (p == '?' || p == c) && globMatchF fuel ps2 ks2

/-- redis glob matching of a whole pattern against a whole key. -/
def globMatch (ps ks : List Char) : Bool :=
  globMatchF (ps.length + ks.length + 1) ps ks

/-- redis SCAN with a MATCH pattern: the matching keys, in store order. -/
def scanKeys (s : Store) (pattern : List Char) : List (List Char) :=
  (storeKeys s).filter (globMatch pattern)

/-- A Python value as StateManager.get returns it: either a parsed JSON value
(fromJson JValue.null is Python None) or, for stored text that fails to
parse, the raw text itself. -/
inductive PyVal where
  | fromJson (v : JValue)
  | rawStr (s : List Char)

/-- json.dumps of a value StateManager.get produced: a parsed value dumps
as itself; raw text is a Python str, which dumps as a JSON string. -/
def pyToJson : PyVal → JValue
  | .fromJson v => v
  | .rawStr s => .jstr s

namespace StateManager

/-- StateManager.get: None when the key is absent, the parsed JSON value
when the stored text parses, and the raw text otherwise (the
json.JSONDecodeError fallback).  A stored "null" and an absent key both
come back as Python None, i.e. fromJson JValue.null. -/
def get (s : Store) (key : List Char) : PyVal :=
  match rget s key with
  | none => .fromJson .null
  | some text =>
    match jparse text with
    | some v => .fromJson v
    | none => .rawStr text

/-- StateManager.set: JSON-serialize the value and store it.  The optional
ttl selects SETEX instead of SET; both store the serialized text, and key
expiry is a wall-clock effect outside this embedding. -/
def set (s : Store) (key : List Char) (value : JValue) (_ttl : Option Nat) : Store :=
  rset s key (jdump value)

/-- StateManager.delete. -/
def delete (s : Store) (key : List Char) : Store := rdel s key

/-- StateManager.exists (named existsKey here; exists is reserved). -/
def existsKey (s : Store) (key : List Char) : Bool := rexists s key

end StateManager

theorem rget_rset_self (s : Store) (k v : List Char) : rget (rset s k v) k = some v := by
  induction s with
  | nil => simp [rset, rget]
  | cons kv rest ih =>
    rw [rset, List.filter_cons]
    by_cases h : kv.1 = k
    · have : (kv.1 != k) = false := by simp [h]
      rw [this]
      simpa [rset] using ih
    · have : (kv.1 != k) = true := by simp [h]
      rw [this, if_pos rfl, List.cons_append, rget]
      rw [if_neg h]
      simpa [rset] using ih

theorem rget_rset_ne (s : Store) (k v k2 : List Char) (hne : k2 ≠ k) :
    rget (rset s k v) k2 = rget s k2 := by
  induction s with
  | nil =>
    simp only [rset, List.filter_nil, List.nil_append, rget]
    rw [if_neg (fun h => hne h.symm)]
  | cons kv rest ih =>
    rw [rset, List.filter_cons]
    by_cases h : kv.1 = k
    · have hb : (kv.1 != k) = false := by simp [h]
      rw [hb, rget]
      have : kv.1 ≠ k2 := by rw [h]; exact fun he => hne he.symm
      rw [if_neg this]
      simpa [rset] using ih
    · have hb : (kv.1 != k) = true := by simp [h]
      rw [hb, if_pos rfl, List.cons_append, rget, rget]
      by_cases h2 : kv.1 = k2
      · rw [if_pos h2, if_pos h2]
      · rw [if_neg h2, if_neg h2]
        simpa [rset] using ih


/-! ## runtime/state.py: distributed lock -/

/-- redis.exceptions.LockError raised when acquisition does not succeed
within blocking_timeout. -/
inductive LockFailure where
  | unavailable
deriving DecidableEq

namespace StateManager

/-- StateManager.lock used as a context manager around a critical section.
Real time is outside the embedding, so the acquisition attempt is abstracted
to its outcome acquireOk ("lock.acquire() returned True within
blocking_timeout").  On success the critical section runs and release
happens in the finally block (locks live outside the Store, and a failed
release is swallowed); on failure LockError is raised before the body, and
the release attempt in the finally block fails and is swallowed, so the
LockError propagates. -/
def lock {α : Type} (_name : List Char) (acquireOk : Bool)
    (critical : Store → Store × α) (s : Store) : Except LockFailure (Store × α) :=
  if acquireOk then .ok (critical s) else .error .unavailable

/-- StateManager.migrate_key: read the old key; if the value is None
(absent key, or stored JSON null) return False without touching the store;
otherwise apply the optional transform and, under the migration lock
(acquisition modelled as succeeding), write the new key and delete the old
one. -/
def migrate_key (s : Store) (old_key new_key : List Char)
    (transform_fn : Option (PyVal → PyVal)) : Bool × Store :=
  match get s old_key with
  | .fromJson .null => (false, s)
  | value =>
    let value2 :=
      match transform_fn with
      | some f => f value
      | none => value
    let s1 := set s new_key (pyToJson value2) none
    let s2 := delete s1 old_key
    (true, s2)

end StateManager

/-! ## runtime/state.py: backup and restore -/

/-- Python str.replace(pat, repl, 1): replace the first occurrence only. -/
def replaceOnce (pat repl s : List Char) : List Char :=
  if pat.isPrefixOf s then repl ++ s.drop pat.length
  else
    match s with
    | [] => []
    | c :: rest => c :: replaceOnce pat repl rest

namespace StateManager

/-- StateManager.backup_keys: snapshot every key matching the pattern that
is not already under the backup namespace into
backup_prefix ++ timestamp ++ ":" ++ key.  The timestamp
(datetime.utcnow().isoformat()) is taken at the call, outside the
embedding, so it is a parameter; reads go through self.get on the current
store as the fold proceeds. -/
def backup_keys (s : Store) (pattern bpx timestamp : List Char) : Nat × Store :=
  (scanKeys s pattern).foldl
    (fun acc key =>
      if bpx.isPrefixOf key then acc
      else
        match get acc.2 key with
        | .fromJson .null => acc
        | value => (acc.1 + 1, set acc.2 (bpx ++ timestamp ++ ':' :: key) (pyToJson value) none))
    (0, s)

/-- One iteration of StateManager.restore_from_backup: strip the namespace
from the backup key to recover the original key, skip it when it already
exists and overwriting was not requested, skip it when its value is None,
and otherwise restore it and count it. -/
def restoreStep (pfx : List Char) (overwrite : Bool) (acc : Nat × Store)
    (backup_key : List Char) : Nat × Store :=
  let original_key := replaceOnce pfx [] backup_key
  if !overwrite && existsKey acc.2 original_key then acc
  else
    match get acc.2 backup_key with
    | .fromJson .null => acc
    | value => (acc.1 + 1, set acc.2 original_key (pyToJson value) none)

/-- StateManager.restore_from_backup: fold restoreStep over the keys
matching backup_prefix ++ timestamp ++ ":*" (bpx is the source's
backup_prefix). -/
def restore_from_backup (s : Store) (backup_timestamp bpx : List Char)
    (overwrite : Bool) : Nat × Store :=
  let pfx := bpx ++ backup_timestamp ++ [':']
  (scanKeys s (pfx ++ ['*'])).foldl (restoreStep pfx overwrite) (0, s)

end StateManager

/-! ## runtime/state.py: list_backups -/

/-- Split at the first occurrence of a separator, if any. -/
def splitFirst (sep : Char) : List Char → Option (List Char × List Char)
  | [] => none
  | c :: rest =>
    if c = sep then some ([], rest)
    else
      match splitFirst sep rest with
      | some (a, b) => some (c :: a, b)
      | none => none

/-- Python str.split(sep, maxsplit): at most maxsplit splits, remainder
kept whole. -/
def pySplit (sep : Char) (maxsplit : Nat) (s : List Char) : List (List Char) :=
  match maxsplit with
  | 0 => [s]
  | m + 1 =>
    match splitFirst sep s with
    | none => [s]
    | some (a, b) => a :: pySplit sep m b

/-- Python string comparison: lexicographic by code point. -/
def strLt : List Char → List Char → Bool
  | [], [] => false
  | [], _ :: _ => true
  | _ :: _, [] => false
  | a :: as2, b :: bs => decide (a < b) || (a == b && strLt as2 bs)

/-- Insert into a descending-sorted list, keeping it descending. -/
def insertDesc (x : List Char) : List (List Char) → List (List Char)
  | [] => [x]
  | y :: ys => if strLt y x then x :: y :: ys else y :: insertDesc x ys

/-- sorted(reverse=True) on distinct strings: insertion sort, descending. -/
def sortDesc : List (List Char) → List (List Char)
  | [] => []
  | x :: xs => insertDesc x (sortDesc xs)

namespace StateManager

/-- StateManager.list_backups: for every key matching backup_prefix ++ "*",
split the key at the first two colons and collect the second field into a
set when the split produced at least two parts; return the set sorted
descending.  (bpx is the source's backup_prefix.) -/
def list_backups (s : Store) (bpx : List Char) : List (List Char) :=
  let keys := scanKeys s (bpx ++ ['*'])
  let stamps := keys.filterMap (fun k =>
    let parts := pySplit ':' 2 k
    if 2 ≤ parts.length then parts.get? 1 else none)
  sortDesc stamps.dedup

end StateManager

/-! ## runtime/state.py: the AgentState helper and add_to_history -/

/-- Python dict update d[k] = v (and the {**d, k: v} merge): an existing key
keeps its position and gets the new value, a new key is appended. -/
def dictUpd : List (List Char × JValue) → List Char → JValue → List (List Char × JValue)
  | [], k, v => [(k, v)]
  | (k2, w) :: rest, k, v =>
    if k2 = k then (k2, v) :: rest else (k2, w) :: dictUpd rest k v

/-- The event record add_to_history appends: the event dict merged with a
timestamp (datetime.utcnow().isoformat(), outside the embedding, so a
parameter) and the agent id. -/
def historyEntry (event : List (List Char × JValue)) (ts agent_id : List Char) : JValue :=
  .jobj (dictUpd (dictUpd event ("timestamp".data) (.jstr ts)) ("agent_id".data) (.jstr agent_id))

/-- AgentState._key "history": the agent's namespaced history key. -/
def historyKey (agent_id : List Char) : List Char :=
  "agent:".data ++ agent_id ++ ":history".data

/-- AgentState.add_to_history: read the stored history ("or []" replaces a
falsy read — None, [], 0, "", {}, False — with the empty list), append the
enriched event, keep only the last 100 entries, and write the result back.
A truthy non-list stored value makes history.append raise AttributeError,
modelled as none. -/
def add_to_history (s : Store) (agent_id ts : List Char)
    (event : List (List Char × JValue)) : Option Store :=
  let key := historyKey agent_id
  let historyOpt : Option (List JValue) :=
    match StateManager.get s key with
    | .fromJson (.jarr xs) => some xs
    | .fromJson .null => some []
    | .fromJson (.jbool false) => some []
    | .fromJson (.jbool true) => none
    | .fromJson (.jint n) => if n = 0 then some [] else none
    | .fromJson (.jstr cs) => if cs.isEmpty then some [] else none
    | .fromJson (.jobj []) => some []
    | .fromJson (.jobj (_ :: _)) => none
    | .rawStr cs => if cs.isEmpty then some [] else none
  match historyOpt with
  | none => none
  | some history =>
    let history2 := history ++ [historyEntry event ts agent_id]
    let history3 :=
      if 100 < history2.length then history2.drop (history2.length - 100) else history2
    some (StateManager.set s key (.jarr history3) none)

/-! ## runtime/registry.py: AgentRegistry -/

/-- The fields of agents/base.py AgentConfig the registry consults. -/
structure AgentConfig where
  name : List Char
  role : String
  version : String
  max_retries : Nat
  timeout_seconds : Nat
  health_check_interval : Nat
  shutdown_timeout : Nat

/-- AgentRegistryError cases raised by register. -/
inductive RegistryErr where
  | emptyRole
deriving DecidableEq

/-- The registry state: role to implementation class, role to optional
config validator.  The class type is a parameter; the issubclass check in
register is a typing fact here (every value of kappa is an agent class).
A validator models a Python callable that either returns (none) or raises
with a message (some message). -/
structure AgentRegistry (κ : Type) where
  agents : List (String × κ)
  validators : List (String × (AgentConfig → Option String))

/-- Python dict lookup. -/
def alistGet {α : Type} : List (String × α) → String → Option α
  | [], _ => none
  | (k2, v) :: rest, k => if k2 = k then some v else alistGet rest k

/-- Python dict assignment d[k] = v: the first matching key keeps its place
and gets the new value; an absent key is appended. -/
def alistSet {α : Type} : List (String × α) → String → α → List (String × α)
  | [], k, v => [(k, v)]
  | (k2, w) :: rest, k, v =>
    if k2 = k then (k2, v) :: rest else (k2, w) :: alistSet rest k v

namespace AgentRegistry

/-- AgentRegistry.register: reject an empty role; store the class under the
role (replacing any previous registration); store the validator only when
one was passed — a previous validator for the role is left in place
otherwise. -/
def register {κ : Type} (r : AgentRegistry κ) (role : String) (agent_class : κ)
    (validator : Option (AgentConfig → Option String)) :
    Except RegistryErr (AgentRegistry κ) :=
  if role = "" then .error .emptyRole
  else
    .ok
      { agents := alistSet r.agents role agent_class,
        validators :=
          match validator with
          | some vf => alistSet r.validators role vf
          | none => r.validators }

/-- AgentRegistry.validate_config: the role must be registered, the config
role must match, and the custom validator (when present) must pass; a
validator exception is wrapped into an AgentRegistryError message. -/
def validate_config {κ : Type} (r : AgentRegistry κ) (role : String)
    (config : AgentConfig) : Except String Unit :=
  match alistGet r.agents role with
  | none => .error "not registered"
  | some _ =>
    if config.role ≠ role then .error "role mismatch"
    else
      match alistGet r.validators role with
      | none => .ok ()
      | some vf =>
        match vf config with
        | none => .ok ()
        | some e => .error ("Configuration validation failed: " ++ e)

end AgentRegistry

/-- Assigning under a key makes lookup of that key return the value. -/
theorem alistGet_alistSet {α : Type} (l : List (String × α)) (k : String) (v : α) :
    alistGet (alistSet l k v) k = some v := by
  induction l with
  | nil => simp [alistSet, alistGet]
  | cons kv rest ih =>
    obtain ⟨k2, w⟩ := kv
    rw [alistSet]
    by_cases hk : k2 = k
    · rw [if_pos hk, alistGet, if_pos hk]
    · rw [if_neg hk, alistGet, if_neg hk]
      exact ih

/-! ## The claims -/

/-- C1 counterexample: the claim says stop() from INITIALIZING is rejected as
a no-op that leaves the state unchanged; in the code stop() only returns
early from STOPPED, so from INITIALIZING it transitions through STOPPING to
STOPPED. -/
theorem C1_counterexample :
    stop AgentState.initializing =
      (AgentState.stopped,
        [(AgentState.initializing, AgentState.stopping),
          (AgentState.stopping, AgentState.stopped)]) ∧
      (stop AgentState.initializing).1 ≠ AgentState.initializing := by
  decide

/-- C1 (amended): stop() is a no-op only when the state is already STOPPED;
from every other state — RUNNING, PAUSED, READY, and also INITIALIZING,
ERROR and STOPPING — it proceeds to STOPPED, firing the STOPPING-then-STOPPED
transition sequence (from STOPPING itself only the final transition fires,
since _set_state skips same-state transitions). -/
theorem C1_stop_behavior (s : AgentState) :
    stop s =
      if s = AgentState.stopped then (AgentState.stopped, [])
      else if s = AgentState.stopping then
        (AgentState.stopped, [(AgentState.stopping, AgentState.stopped)])
      else
        (AgentState.stopped,
          [(s, AgentState.stopping), (AgentState.stopping, AgentState.stopped)]) := by
  cases s <;> decide

theorem health_classification_cases (checks : List (String × Bool)) :
    (health_classification checks = AgentHealth.healthy ∧
      (failed_checks checks).length = 0) ∨
    (health_classification checks = AgentHealth.degraded ∧
      0 < (failed_checks checks).length ∧
      2 * (failed_checks checks).length < checks.length) ∨
    (health_classification checks = AgentHealth.unhealthy ∧
      0 < (failed_checks checks).length ∧
      checks.length ≤ 2 * (failed_checks checks).length) := by
  by_cases h0 : failed_checks checks = []
  · exact Or.inl ⟨by rw [health_classification, if_pos h0], by rw [h0]; rfl⟩
  · have hpos : 0 < (failed_checks checks).length := List.length_pos.mpr h0
    by_cases h1 : 2 * (failed_checks checks).length < checks.length
    · exact Or.inr (Or.inl
        ⟨by rw [health_classification, if_neg h0, if_pos h1], hpos, h1⟩)
    · exact Or.inr (Or.inr
        ⟨by rw [health_classification, if_neg h0, if_neg h1], hpos, by omega⟩)

/-- C2: with K total checks and F failed checks, get_health_status
classifies HEALTHY iff F = 0, DEGRADED iff 0 < F and F < K / 2, and
UNHEALTHY iff 0 < F and F ≥ K / 2 (so zero checks classify HEALTHY, as the
claim notes for K = 0). -/
theorem C2_health_classification (checks : List (String × Bool)) :
    (health_classification checks = AgentHealth.healthy ↔
      (failed_checks checks).length = 0) ∧
    (health_classification checks = AgentHealth.degraded ↔
      (0 < (failed_checks checks).length ∧
        2 * (failed_checks checks).length < checks.length)) ∧
    (health_classification checks = AgentHealth.unhealthy ↔
      (0 < (failed_checks checks).length ∧
        checks.length ≤ 2 * (failed_checks checks).length)) ∧
    health_classification [] = AgentHealth.healthy := by
  have hm := health_classification_cases checks
  refine ⟨⟨?_, ?_⟩, ⟨?_, ?_⟩, ⟨?_, ?_⟩, by decide⟩
  · intro hh
    rcases hm with ⟨he, hl⟩ | ⟨he, hl⟩ | ⟨he, hl⟩
    · exact hl
    · rw [hh] at he; exact absurd he (by decide)
    · rw [hh] at he; exact absurd he (by decide)
  · intro hl
    rcases hm with ⟨he, h2⟩ | ⟨he, h2⟩ | ⟨he, h2⟩
    · exact he
    · omega
    · omega
  · intro hh
    rcases hm with ⟨he, hl⟩ | ⟨he, hl⟩ | ⟨he, hl⟩
    · rw [hh] at he; exact absurd he (by decide)
    · exact hl
    · rw [hh] at he; exact absurd he (by decide)
  · intro hl
    rcases hm with ⟨he, h2⟩ | ⟨he, h2⟩ | ⟨he, h2⟩
    · omega
    · exact he
    · omega
  · intro hh
    rcases hm with ⟨he, hl⟩ | ⟨he, hl⟩ | ⟨he, hl⟩
    · rw [hh] at he; exact absurd he (by decide)
    · rw [hh] at he; exact absurd he (by decide)
    · exact hl
  · intro hl
    rcases hm with ⟨he, h2⟩ | ⟨he, h2⟩ | ⟨he, h2⟩
    · omega
    · omega
    · exact he

/-- C3 counterexample: "-" consists only of allowed characters (letters,
digits, hyphens, underscores) and is nonempty, yet validate_name rejects it:
stripping hyphens and underscores leaves the empty string, which fails
Python's isalnum. -/
theorem C3_counterexample :
    validate_name ['-'] = none ∧ (['-'] : List Char) ≠ [] ∧
      (['-'] : List Char).all (fun c => pyIsAlnumChar c || c == '-' || c == '_') = true := by
  decide

/-- C3 (amended): for ASCII names — the fragment on which the embedded
isalnum and lower agree with Python's Unicode-aware versions — construction
succeeds, storing the lowercased input, for exactly the names that contain
at least one character besides hyphens and underscores and whose characters
besides hyphens and underscores are all alphanumeric (equivalently: only
letters, digits, hyphens, underscores, with at least one letter or digit);
every other such name — including the empty name and names of only
hyphens/underscores — fails validation. -/
theorem C3_validate_name (v : List Char) (_hascii : ∀ c ∈ v, c.toNat < 128) :
    (validate_name v = some (v.map Char.toLower) ↔
      (stripHyphenUnderscore v ≠ [] ∧
        ∀ c ∈ stripHyphenUnderscore v, pyIsAlnumChar c = true)) ∧
    (validate_name v = none ↔
      ¬(stripHyphenUnderscore v ≠ [] ∧
        ∀ c ∈ stripHyphenUnderscore v, pyIsAlnumChar c = true)) := by
  have hsub : stripHyphenUnderscore v ≠ [] → v ≠ [] := by
    intro hs hv
    rw [hv] at hs
    exact hs rfl
  have halnum : pyIsAlnum (stripHyphenUnderscore v) = true ↔
      (stripHyphenUnderscore v ≠ [] ∧
        ∀ c ∈ stripHyphenUnderscore v, pyIsAlnumChar c = true) := by
    rw [pyIsAlnum, Bool.and_eq_true, List.all_eq_true]
    constructor
    · rintro ⟨h1, h2⟩
      refine ⟨?_, h2⟩
      intro he
      rw [he] at h1
      simp at h1
    · rintro ⟨h1, h2⟩
      refine ⟨?_, h2⟩
      cases hs : stripHyphenUnderscore v with
      | nil => exact absurd hs h1
      | cons a t => rfl
  rw [validate_name]
  by_cases ha : pyIsAlnum (stripHyphenUnderscore v) = true
  · have hv : v.isEmpty = false := by
      cases hv : v with
      | nil =>
        rw [hv] at ha
        exact absurd ha (by decide)
      | cons c t => rfl
    rw [hv, ha]
    simp only [Bool.not_true, Bool.or_false]
    rw [if_neg (by simp)]
    constructor
    · exact ⟨fun _ => halnum.mp ha, fun _ => rfl⟩
    · constructor
      · intro hx; exact absurd hx (by simp)
      · intro hx; exact absurd (halnum.mp ha) hx
  · have ha2 : pyIsAlnum (stripHyphenUnderscore v) = false := Bool.eq_false_iff.mpr ha
    rw [ha2]
    simp only [Bool.not_false, Bool.or_true, if_pos rfl]
    constructor
    · constructor
      · intro hx; exact absurd hx (by simp)
      · intro hx; exact absurd (halnum.mpr hx) ha
    · constructor
      · intro _ hx; exact ha (halnum.mpr hx)
      · intro _; rfl

/-- C3 witness: a concrete ASCII name with mixed case, a hyphen and an
underscore; it validates and both halves of the characterization hold. -/
theorem C3_witness :
    (∀ c ∈ ("Agent-1_x".data : List Char), c.toNat < 128) ∧
    ((validate_name ("Agent-1_x".data) =
        some (("Agent-1_x".data).map Char.toLower) ↔
      (stripHyphenUnderscore ("Agent-1_x".data) ≠ [] ∧
        ∀ c ∈ stripHyphenUnderscore ("Agent-1_x".data), pyIsAlnumChar c = true)) ∧
     (validate_name ("Agent-1_x".data) = none ↔
      ¬(stripHyphenUnderscore ("Agent-1_x".data) ≠ [] ∧
        ∀ c ∈ stripHyphenUnderscore ("Agent-1_x".data), pyIsAlnumChar c = true))) :=
  ⟨by decide, C3_validate_name ("Agent-1_x".data) (by decide)⟩

/-- C5: migrating a source key that does not exist returns False and leaves
the store exactly as it was: no key is created or deleted. -/
theorem C5_migrate_missing (s : Store) (old_key new_key : List Char)
    (transform_fn : Option (PyVal → PyVal))
    (h : rexists s old_key = false) :
    StateManager.migrate_key s old_key new_key transform_fn = (false, s) := by
  have hget : StateManager.get s old_key = .fromJson .null := by
    rw [StateManager.get]
    rw [rexists] at h
    cases hr : rget s old_key with
    | none => rfl
    | some t => rw [hr] at h; simp at h
  simp only [StateManager.migrate_key, hget]

/-- C5 witness: the empty store has no key "a"; migrating it is a no-op. -/
theorem C5_witness :
    rexists [] ("a".data) = false ∧
      StateManager.migrate_key [] ("a".data) ("b".data) none = (false, []) :=
  ⟨rfl, C5_migrate_missing [] ("a".data) ("b".data) none rfl⟩

/-- C8: when acquisition of the named lock does not succeed within the
acquisition timeout (acquireOk = false), the scoped lock operation fails
with the LockError and the critical section never runs — the result is the
unavailable error for every possible critical section and store, which is
in particular independent of the body. -/
theorem C8_lock_unavailable {α : Type} (name : List Char) (acquireOk : Bool)
    (critical : Store → Store × α) (s : Store) (h : acquireOk = false) :
    StateManager.lock name acquireOk critical s = Except.error LockFailure.unavailable := by
  rw [StateManager.lock, h]
  rfl

/-- C8 witness: a contended lock ("task-42" with a holder, so acquire times
out) fails with LockError and a store-writing critical section never runs. -/
theorem C8_witness :
    StateManager.lock ("task-42".data) false
        (fun st => (rset st ("x".data) ("1".data), ())) [] =
      Except.error LockFailure.unavailable :=
  C8_lock_unavailable ("task-42".data) false
    (fun st => (rset st ("x".data) ("1".data), ())) [] rfl

/-- C9: for every JSON-serializable value (the JValue grammar: None, bools,
ints, strings, lists and string-keyed dicts, nested arbitrarily), set
followed by get on the same key returns the value deep-equal, through the
json.dumps / json.loads round-trip. -/
theorem C9_set_get_roundtrip (s : Store) (key : List Char) (v : JValue) (ttl : Option Nat) :
    StateManager.get (StateManager.set s key v ttl) key = PyVal.fromJson v := by
  rw [StateManager.set, StateManager.get, rget_rset_self]
  simp only [jparse_jdump]

/-- C10: re-registering a role with a new class and no validator keeps the
previously registered validator: after register(role, A, v) then
register(role, B), validate_config(role, config) still runs v. -/
theorem C10_register_keeps_validator {κ : Type} (r : AgentRegistry κ) (role : String)
    (A B : κ) (vf : AgentConfig → Option String) (config : AgentConfig)
    (hrole : role ≠ "") (hcfg : config.role = role) :
    ∃ r1 r2 : AgentRegistry κ,
      AgentRegistry.register r role A (some vf) = Except.ok r1 ∧
      AgentRegistry.register r1 role B none = Except.ok r2 ∧
      alistGet r2.validators role = some vf ∧
      AgentRegistry.validate_config r2 role config =
        (match vf config with
          | none => Except.ok ()
          | some e => Except.error ("Configuration validation failed: " ++ e)) := by
  refine ⟨⟨alistSet r.agents role A, alistSet r.validators role vf⟩,
    ⟨alistSet (alistSet r.agents role A) role B, alistSet r.validators role vf⟩,
    ?_, ?_, ?_, ?_⟩
  · rw [AgentRegistry.register, if_neg hrole]
  · rw [AgentRegistry.register, if_neg hrole]
  · exact alistGet_alistSet r.validators role vf
  · rw [AgentRegistry.validate_config]
    simp only [alistGet_alistSet]
    rw [if_neg (by rw [hcfg]; exact fun hne => hne rfl)]

/-- C10 witness: a concrete double registration on the Bool class universe;
the second registration passes no validator and the first one's validator
still answers validate_config. -/
theorem C10_witness :
    ∃ r1 r2 : AgentRegistry Bool,
      AgentRegistry.register ⟨[], []⟩ "coder" true (some (fun _ => none)) = Except.ok r1 ∧
      AgentRegistry.register r1 "coder" false none = Except.ok r2 ∧
      alistGet r2.validators "coder" = some (fun _ => none) ∧
      AgentRegistry.validate_config r2 "coder"
          ⟨"c1".data, "coder", "1.0.0", 3, 300, 30, 30⟩ =
        (match (fun (_ : AgentConfig) => (none : Option String))
            ⟨"c1".data, "coder", "1.0.0", 3, 300, 30, 30⟩ with
          | none => Except.ok ()
          | some e => Except.error ("Configuration validation failed: " ++ e)) :=
  C10_register_keeps_validator ⟨[], []⟩ "coder" true false (fun _ => none)
    ⟨"c1".data, "coder", "1.0.0", 3, 300, 30, 30⟩ (by decide) rfl

/-- C4: whenever the stored history parses as a JSON list, or reads back as
Python None with h = [] — which is what get returns for an absent key (the
first-ever append) or a stored JSON null, the states where "or []" applies —
the stored history after add_to_history holds at most 100 events with the
newly appended (enriched) event last; and when exactly 100 events were
stored, the write stores exactly 100 events again, the oldest evicted. -/
theorem C4_history_bounded (s : Store) (agent_id ts : List Char)
    (event : List (List Char × JValue)) (h : List JValue)
    (hh : StateManager.get s (historyKey agent_id) = PyVal.fromJson (JValue.jarr h) ∨
      (StateManager.get s (historyKey agent_id) = PyVal.fromJson JValue.null ∧
        h = [])) :
    ∃ (s2 : Store) (newHist : List JValue),
      add_to_history s agent_id ts event = some s2 ∧
      StateManager.get s2 (historyKey agent_id) = PyVal.fromJson (JValue.jarr newHist) ∧
      newHist.length ≤ 100 ∧
      newHist.getLast? = some (historyEntry event ts agent_id) ∧
      (h.length = 100 → newHist = h.drop 1 ++ [historyEntry event ts agent_id]) := by
  have hhist : (match StateManager.get s (historyKey agent_id) with
    | .fromJson (.jarr xs) => some xs
    | .fromJson .null => some []
    | .fromJson (.jbool false) => some []
    | .fromJson (.jbool true) => none
    | .fromJson (.jint n) => if n = 0 then some [] else none
    | .fromJson (.jstr cs) => if cs.isEmpty then some [] else none
    | .fromJson (.jobj []) => some []
    | .fromJson (.jobj (_ :: _)) => none
    | .rawStr cs => if cs.isEmpty then some [] else none) = some h := by
    rcases hh with hget | ⟨hget, hnil⟩
    · rw [hget]
    · rw [hget, hnil]
  have hstep : add_to_history s agent_id ts event =
      some (StateManager.set s (historyKey agent_id)
        (.jarr (if 100 < (h ++ [historyEntry event ts agent_id]).length
          then (h ++ [historyEntry event ts agent_id]).drop
            ((h ++ [historyEntry event ts agent_id]).length - 100)
          else (h ++ [historyEntry event ts agent_id]))) none) := by
    rw [add_to_history]
    simp only [hhist]
  refine ⟨_,
    (if 100 < (h ++ [historyEntry event ts agent_id]).length
      then (h ++ [historyEntry event ts agent_id]).drop
        ((h ++ [historyEntry event ts agent_id]).length - 100)
      else (h ++ [historyEntry event ts agent_id])),
    hstep, ?_, ?_, ?_, ?_⟩
  · rw [StateManager.set, StateManager.get, rget_rset_self]
    simp only [jparse_jdump]
  · by_cases hc : 100 < (h ++ [historyEntry event ts agent_id]).length
    · rw [if_pos hc, List.length_drop]
      omega
    · rw [if_neg hc]
      omega
  · by_cases hc : 100 < (h ++ [historyEntry event ts agent_id]).length
    · rw [if_pos hc]
      have hk : (h ++ [historyEntry event ts agent_id]).length - 100 ≤ h.length := by
        rw [List.length_append, List.length_singleton]
        omega
      rw [List.drop_append_of_le_length hk, List.getLast?_concat]
    · rw [if_neg hc, List.getLast?_concat]
  · intro h100
    have hc : 100 < (h ++ [historyEntry event ts agent_id]).length := by
      rw [List.length_append, List.length_singleton]
      omega
    rw [if_pos hc]
    have hk1 : (h ++ [historyEntry event ts agent_id]).length - 100 = 1 := by
      rw [List.length_append, List.length_singleton]
      omega
    rw [hk1, List.drop_append_of_le_length (by omega)]

/-- C4 witness: an agent whose stored history holds exactly 100 events
receives a 101st; the theorem applies and its eviction clause is live. -/
theorem C4_witness :
    ∃ (s2 : Store) (newHist : List JValue),
      add_to_history
          [(historyKey ("a1".data), jdump (JValue.jarr (List.replicate 100 JValue.null)))]
          ("a1".data) ("t0".data) [] = some s2 ∧
      StateManager.get s2 (historyKey ("a1".data)) =
        PyVal.fromJson (JValue.jarr newHist) ∧
      newHist.length ≤ 100 ∧
      newHist.getLast? = some (historyEntry [] ("t0".data) ("a1".data)) ∧
      ((List.replicate 100 JValue.null).length = 100 →
        newHist = (List.replicate 100 JValue.null).drop 1 ++
          [historyEntry [] ("t0".data) ("a1".data)]) :=
  C4_history_bounded
    [(historyKey ("a1".data), jdump (JValue.jarr (List.replicate 100 JValue.null)))]
    ("a1".data) ("t0".data) [] (List.replicate 100 JValue.null)
    (Or.inl (by
      rw [StateManager.get]
      have hr : rget
          [(historyKey ("a1".data), jdump (JValue.jarr (List.replicate 100 JValue.null)))]
          (historyKey ("a1".data)) =
          some (jdump (JValue.jarr (List.replicate 100 JValue.null))) := by
        rw [rget, if_pos rfl]
      rw [hr]
      simp only [jparse_jdump]))

theorem globMatchF_cons_step (f : Nat) (p : Char) (ps2 ks : List Char) :
    globMatchF (f + 1) (p :: ps2) ks =
      (if p = '*' then
        match ks with
        | [] => globMatchF f ps2 []
        | _ :: ks2 => globMatchF f ps2 ks || globMatchF f (p :: ps2) ks2
      else
        match ks with
        | [] => false
        | c :: ks2 => (p == '?' || p == c) && globMatchF f ps2 ks2) := rfl

theorem globMatchF_star_step (f : Nat) (ps2 ks : List Char) :
    globMatchF (f + 1) ('*' :: ps2) ks =
      match ks with
      | [] => globMatchF f ps2 []
      | _ :: ks2 => globMatchF f ps2 ks || globMatchF f ('*' :: ps2) ks2 := by
  rw [globMatchF_cons_step, if_pos rfl]

theorem globMatchF_lit_step (f : Nat) (p : Char) (ps2 ks : List Char) (hp : p ≠ '*') :
    globMatchF (f + 1) (p :: ps2) ks =
      match ks with
      | [] => false
      | c :: ks2 => (p == '?' || p == c) && globMatchF f ps2 ks2 := by
  rw [globMatchF_cons_step, if_neg hp]

theorem globMatchF_star (k : List Char) : ∀ (fuel : Nat), k.length + 1 < fuel →
    globMatchF fuel ['*'] k = true := by
  induction k with
  | nil =>
    intro fuel h
    match fuel, h with
    | g + 1, h2 =>
      rw [globMatchF_star_step]
      have hg : 0 < g := by
        simp only [List.length_nil] at h2
        omega
      match g, hg with
      | g2 + 1, _ => rfl
  | cons c ks ih =>
    intro fuel h
    match fuel, h with
    | g + 1, h2 =>
      rw [globMatchF_star_step]
      have hg : ks.length + 1 < g := by
        simp only [List.length_cons] at h2
        omega
      have h1 : globMatchF g [] (c :: ks) = false := by
        match g, (by omega : 0 < g) with
        | g2 + 1, _ => rfl
      show (globMatchF g [] (c :: ks) || globMatchF g ('*' :: []) ks) = true
      rw [h1, ih g hg]
      rfl

/-- On a pattern of plain characters followed by one star, glob matching is
exactly prefix matching. -/
theorem globMatchF_star_pfx (p : List Char) : ∀ (k : List Char) (fuel : Nat),
    (∀ c ∈ p, c ≠ '*' ∧ c ≠ '?') → p.length + k.length + 1 < fuel →
    globMatchF fuel (p ++ ['*']) k = p.isPrefixOf k := by
  induction p with
  | nil =>
    intro k fuel _ h
    rw [List.nil_append, globMatchF_star k fuel (by simpa using h),
      List.isPrefixOf_nil_left]
  | cons a p2 ih =>
    intro k fuel hmeta h
    have ha := hmeta a (List.mem_cons_self _ _)
    match fuel, h with
    | g + 1, h2 =>
      rw [List.cons_append, globMatchF_lit_step g a (p2 ++ ['*']) k ha.1]
      cases k with
      | nil => rfl
      | cons c ks2 =>
        have hq : (a == '?') = false := by
          simpa using ha.2
        show ((a == '?' || a == c) && globMatchF g (p2 ++ ['*']) ks2) =
          (a :: p2).isPrefixOf (c :: ks2)
        rw [hq]
        simp only [Bool.false_or]
        have hih : globMatchF g (p2 ++ ['*']) ks2 = p2.isPrefixOf ks2 := by
          apply ih ks2 g (fun c2 hc2 => hmeta c2 (List.mem_cons_of_mem _ hc2))
          simp only [List.length_cons] at h2 ⊢
          omega
        rw [hih]
        rfl

theorem globMatch_pfx (p k : List Char) (hmeta : ∀ c ∈ p, c ≠ '*' ∧ c ≠ '?') :
    globMatch (p ++ ['*']) k = p.isPrefixOf k := by
  rw [globMatch]
  apply globMatchF_star_pfx p k _ hmeta
  simp only [List.length_append, List.length_singleton]
  omega

theorem replaceOnce_of_pfx {pat s : List Char} (h : pat.isPrefixOf s = true) :
    replaceOnce pat [] s = s.drop pat.length := by
  rw [replaceOnce.eq_def, if_pos h, List.nil_append]

theorem pfx_append_drop : ∀ (p k : List Char), p.isPrefixOf k = true →
    p ++ k.drop p.length = k := by
  intro p
  induction p with
  | nil => intro k _; simp
  | cons a as ih =>
    intro k h
    cases k with
    | nil => exact Bool.noConfusion h
    | cons b bs =>
      have h2 : (a == b && as.isPrefixOf bs) = true := h
      rw [Bool.and_eq_true, beq_iff_eq] at h2
      obtain ⟨hab, hrec⟩ := h2
      subst hab
      rw [List.length_cons, List.drop_succ_cons, List.cons_append, ih bs hrec]

theorem eq_of_pfx_drop {p k1 k2 : List Char} (h1 : p.isPrefixOf k1 = true)
    (h2 : p.isPrefixOf k2 = true) (hd : k1.drop p.length = k2.drop p.length) :
    k1 = k2 := by
  rw [← pfx_append_drop p k1 h1, ← pfx_append_drop p k2 h2, hd]

theorem mem_storeKeys_of_rget {s : Store} {k t : List Char} (h : rget s k = some t) :
    k ∈ storeKeys s := by
  induction s with
  | nil => rw [rget] at h; cases h
  | cons kv rest ih =>
    rw [rget] at h
    by_cases hk : kv.1 = k
    · rw [storeKeys, List.map_cons]
      rw [hk]
      exact List.mem_cons_self _ _
    · rw [if_neg hk] at h
      exact List.mem_cons_of_mem _ (ih h)

theorem restoreStep_preserves (pfx : List Char) (ow : Bool) (acc : Nat × Store)
    (bk target : List Char) (hne : replaceOnce pfx [] bk ≠ target) :
    rget (StateManager.restoreStep pfx ow acc bk).2 target = rget acc.2 target := by
  rw [StateManager.restoreStep]
  by_cases hc : (!ow && StateManager.existsKey acc.2 (replaceOnce pfx [] bk)) = true
  · rw [if_pos hc]
  · rw [if_neg hc]
    cases hval : StateManager.get acc.2 bk with
    | fromJson v =>
      cases v with
      | null => rfl
      | jbool b =>
        simp only [StateManager.set]
        exact rget_rset_ne _ _ _ _ (fun he => hne he.symm)
      | jint n =>
        simp only [StateManager.set]
        exact rget_rset_ne _ _ _ _ (fun he => hne he.symm)
      | jstr cs =>
        simp only [StateManager.set]
        exact rget_rset_ne _ _ _ _ (fun he => hne he.symm)
      | jarr items =>
        simp only [StateManager.set]
        exact rget_rset_ne _ _ _ _ (fun he => hne he.symm)
      | jobj fields =>
        simp only [StateManager.set]
        exact rget_rset_ne _ _ _ _ (fun he => hne he.symm)
    | rawStr cs =>
      simp only [StateManager.set]
      exact rget_rset_ne _ _ _ _ (fun he => hne he.symm)

theorem restore_fold_preserves (pfx : List Char) (ow : Bool) :
    ∀ (keys : List (List Char)) (acc : Nat × Store) (target : List Char),
      (∀ k ∈ keys, replaceOnce pfx [] k ≠ target) →
      rget ((keys.foldl (StateManager.restoreStep pfx ow) acc).2) target =
        rget acc.2 target := by
  intro keys
  induction keys with
  | nil => intro acc target _; rfl
  | cons bk rest ih =>
    intro acc target hall
    rw [List.foldl_cons,
      ih _ target (fun k hk => hall k (List.mem_cons_of_mem _ hk)),
      restoreStep_preserves pfx ow acc bk target (hall bk (List.mem_cons_self _ _))]

theorem restoreStep_keep_existing (pfx : List Char) (acc : Nat × Store) (s0 : Store)
    (bk d : List Char) (hex : rexists s0 d = true) (hinv : rget acc.2 d = rget s0 d) :
    rget (StateManager.restoreStep pfx false acc bk).2 d = rget s0 d := by
  by_cases he : replaceOnce pfx [] bk = d
  · rw [StateManager.restoreStep]
    have hc : (!false && StateManager.existsKey acc.2 (replaceOnce pfx [] bk)) = true := by
      rw [he]
      simp only [Bool.not_false, Bool.true_and]
      rw [StateManager.existsKey, rexists, hinv]
      rw [rexists] at hex
      exact hex
    rw [if_pos hc]
    exact hinv
  · rw [restoreStep_preserves pfx false acc bk d he]
    exact hinv

theorem restore_fold_keep_existing (pfx : List Char) :
    ∀ (keys : List (List Char)) (acc : Nat × Store) (s0 : Store) (d : List Char),
      rexists s0 d = true →
      rget acc.2 d = rget s0 d →
      rget ((keys.foldl (StateManager.restoreStep pfx false) acc).2) d = rget s0 d := by
  intro keys
  induction keys with
  | nil => intro acc s0 d _ hinv; exact hinv
  | cons bk rest ih =>
    intro acc s0 d hex hinv
    rw [List.foldl_cons]
    exact ih _ s0 d hex (restoreStep_keep_existing pfx acc s0 bk d hex hinv)

theorem restoreStep_writes (pfx : List Char) (acc : Nat × Store) (bk text : List Char)
    (v : JValue) (hr : rget acc.2 bk = some text) (hp : jparse text = some v)
    (hv : v ≠ JValue.null) :
    StateManager.restoreStep pfx true acc bk =
      (acc.1 + 1, rset acc.2 (replaceOnce pfx [] bk) (jdump v)) := by
  rw [StateManager.restoreStep]
  rw [if_neg (by simp)]
  have hget : StateManager.get acc.2 bk = PyVal.fromJson v := by
    rw [StateManager.get, hr]
    simp only [hp]
  simp only [hget]
  cases v with
  | null => exact absurd rfl hv
  | jbool b => rfl
  | jint n => rfl
  | jstr cs => rfl
  | jarr items => rfl
  | jobj fields => rfl

theorem restore_fold_writes (pfx : List Char) :
    ∀ (keys : List (List Char)) (acc : Nat × Store) (s0 : Store) (bk text : List Char)
      (v : JValue),
      keys.Nodup →
      (∀ k ∈ keys, pfx.isPrefixOf k = true) →
      (∀ k ∈ keys, pfx.isPrefixOf (replaceOnce pfx [] k) = false) →
      (∀ k ∈ keys, rget acc.2 k = rget s0 k) →
      bk ∈ keys →
      rget s0 bk = some text → jparse text = some v → v ≠ JValue.null →
      rget ((keys.foldl (StateManager.restoreStep pfx true) acc).2)
        (replaceOnce pfx [] bk) = some (jdump v) := by
  intro keys
  induction keys with
  | nil =>
    intro _ _ _ _ _ _ _ _ _ hmem _ _ _
    exact absurd hmem (List.not_mem_nil _)
  | cons k0 rest ih =>
    intro acc s0 bk text v hnd hpfx hnpfx hinv hmem hr hp hv
    rw [List.foldl_cons]
    rcases List.mem_cons.mp hmem with heq | hmem2
    · subst heq
      have hr2 : rget acc.2 bk = some text :=
        (hinv bk (List.mem_cons_self _ _)).trans hr
      rw [restoreStep_writes pfx acc bk text v hr2 hp hv]
      rw [restore_fold_preserves pfx true rest _ (replaceOnce pfx [] bk) ?hne]
      · exact rget_rset_self _ _ _
      case hne =>
        intro k hk
        have hkpfx := hpfx k (List.mem_cons_of_mem _ hk)
        have hbkpfx := hpfx bk (List.mem_cons_self _ _)
        have hkne : k ≠ bk := by
          intro he
          subst he
          exact (List.nodup_cons.mp hnd).1 hk
        rw [replaceOnce_of_pfx hkpfx, replaceOnce_of_pfx hbkpfx]
        intro hd
        exact hkne (eq_of_pfx_drop hkpfx hbkpfx hd)
    · apply ih _ s0 bk text v (List.nodup_cons.mp hnd).2
        (fun k hk => hpfx k (List.mem_cons_of_mem _ hk))
        (fun k hk => hnpfx k (List.mem_cons_of_mem _ hk))
        ?_ hmem2 hr hp hv
      intro k hk
      rw [restoreStep_preserves pfx true acc k0 k ?_]
      · exact hinv k (List.mem_cons_of_mem _ hk)
      · have hk0 := hnpfx k0 (List.mem_cons_self _ _)
        have hkp := hpfx k (List.mem_cons_of_mem _ hk)
        intro he
        rw [he, hkp] at hk0
        exact Bool.noConfusion hk0

/-- C6 counterexample: with overwrite requested, a backup entry stored under
the timestamp whose value is JSON null is skipped — the destination key is
not written and keeps its old value, contradicting "with overwrite=true it
always writes the backup value for every key stored under the given backup
timestamp". -/
theorem C6_counterexample :
    (StateManager.restore_from_backup
        [("backup:T:x".data, "null".data), ("x".data, "\"old\"".data)]
        ("T".data) ("backup:".data) true).1 = 0 ∧
    rget (StateManager.restore_from_backup
        [("backup:T:x".data, "null".data), ("x".data, "\"old\"".data)]
        ("T".data) ("backup:".data) true).2 ("x".data) = some ("\"old\"".data) ∧
    rget [("backup:T:x".data, "null".data), ("x".data, "\"old\"".data)]
      ("backup:T:x".data) = some ("null".data) := by
  refine ⟨?_, ?_, rfl⟩ <;> rfl

/-- C6 (amended): restore_from_backup with overwrite=false never modifies a
destination key that already exists (no extra conditions); with
overwrite=true it writes the backup value for every key stored under the
given backup timestamp whose backup value is not JSON null (null-valued
entries are skipped even when overwriting).  The overwrite half is stated
for stores with redis-unique keys whose backup namespace is not itself
backed up — which backup_keys guarantees by skipping keys already under the
backup namespace — and for glob-free values of the timestamp and the
namespace parameter. -/
theorem C6_restore (s : Store) (ts bpx d bk text : List Char) (v : JValue)
    (hmeta : ∀ c ∈ bpx ++ ts, c ≠ '*' ∧ c ≠ '?')
    (hnodup : (storeKeys s).Nodup)
    (hnest : ∀ k ∈ storeKeys s, (bpx ++ ts ++ [':']).isPrefixOf k = true →
      (bpx ++ ts ++ [':']).isPrefixOf (k.drop (bpx ++ ts ++ [':']).length) = false)
    (hd : rexists s d = true)
    (hbk : rget s bk = some text) (hparse : jparse text = some v)
    (hv : v ≠ JValue.null)
    (hpfx : (bpx ++ ts ++ [':']).isPrefixOf bk = true) :
    rget (StateManager.restore_from_backup s ts bpx false).2 d = rget s d ∧
    StateManager.get (StateManager.restore_from_backup s ts bpx true).2
      (bk.drop (bpx ++ ts ++ [':']).length) = PyVal.fromJson v := by
  have hmeta2 : ∀ c ∈ bpx ++ ts ++ [':'], c ≠ '*' ∧ c ≠ '?' := by
    intro c hc
    rcases List.mem_append.mp hc with hm | hm
    · exact hmeta c hm
    · rw [List.mem_singleton] at hm
      subst hm
      exact ⟨by decide, by decide⟩
  have hglob : ∀ k, globMatch ((bpx ++ ts ++ [':']) ++ ['*']) k =
      (bpx ++ ts ++ [':']).isPrefixOf k :=
    fun k => globMatch_pfx _ k hmeta2
  constructor
  · rw [StateManager.restore_from_backup]
    exact restore_fold_keep_existing _ _ (0, s) s d hd rfl
  · have hscan : ∀ k ∈ scanKeys s ((bpx ++ ts ++ [':']) ++ ['*']),
        k ∈ storeKeys s ∧ (bpx ++ ts ++ [':']).isPrefixOf k = true := by
      intro k hk
      obtain ⟨hm, hg⟩ := List.mem_filter.mp hk
      rw [hglob k] at hg
      exact ⟨hm, hg⟩
    have hmem : bk ∈ scanKeys s ((bpx ++ ts ++ [':']) ++ ['*']) := by
      apply List.mem_filter.mpr
      exact ⟨mem_storeKeys_of_rget hbk, by rw [hglob bk]; exact hpfx⟩
    have hwrite := restore_fold_writes (bpx ++ ts ++ [':'])
      (scanKeys s ((bpx ++ ts ++ [':']) ++ ['*'])) (0, s) s bk text v
      (List.Nodup.filter _ hnodup)
      (fun k hk => (hscan k hk).2)
      (fun k hk => by
        rw [replaceOnce_of_pfx (hscan k hk).2]
        exact hnest k (hscan k hk).1 (hscan k hk).2)
      (fun k _ => rfl)
      hmem hbk hparse hv
    rw [replaceOnce_of_pfx hpfx] at hwrite
    rw [StateManager.restore_from_backup]
    rw [StateManager.get, hwrite]
    simp only [jparse_jdump]

/-- C6 witness: a store with an existing destination "x" and a backup entry
for "y" under timestamp "T"; the no-overwrite run leaves "x" alone and the
overwrite run restores "y" from its backup. -/
theorem C6_witness :
    rget (StateManager.restore_from_backup
        [("x".data, "\"keep\"".data), ("backup:T:y".data, "\"v\"".data)]
        ("T".data) ("backup:".data) false).2 ("x".data) =
      rget [("x".data, "\"keep\"".data), ("backup:T:y".data, "\"v\"".data)] ("x".data) ∧
    StateManager.get (StateManager.restore_from_backup
        [("x".data, "\"keep\"".data), ("backup:T:y".data, "\"v\"".data)]
        ("T".data) ("backup:".data) true).2
      ("backup:T:y".data.drop ("backup:".data ++ "T".data ++ [':']).length) =
      PyVal.fromJson (JValue.jstr ("v".data)) :=
  C6_restore [("x".data, "\"keep\"".data), ("backup:T:y".data, "\"v\"".data)]
    ("T".data) ("backup:".data) ("x".data) ("backup:T:y".data) ("\"v\"".data)
    (JValue.jstr ("v".data))
    (by decide) (by decide) (by decide) rfl rfl rfl
    (fun h => JValue.noConfusion h) rfl

theorem strLt_cons (a b : Char) (as2 bs : List Char) :
    strLt (a :: as2) (b :: bs) = (decide (a < b) || (a == b && strLt as2 bs)) := rfl

theorem strLt_total (a : List Char) : ∀ (b : List Char), a ≠ b →
    strLt a b = true ∨ strLt b a = true := by
  induction a with
  | nil =>
    intro b hne
    cases b with
    | nil => exact absurd rfl hne
    | cons c cs => exact Or.inl rfl
  | cons c cs ih =>
    intro b hne
    cases b with
    | nil => exact Or.inr rfl
    | cons d ds =>
      rcases lt_trichotomy c d with hlt | heq | hgt
      · left
        rw [strLt_cons]
        simp [hlt]
      · subst heq
        have hne2 : cs ≠ ds := by
          intro he
          subst he
          exact hne rfl
        rcases ih ds hne2 with h | h
        · left
          rw [strLt_cons]
          simp [h]
        · right
          rw [strLt_cons]
          simp [h]
      · right
        rw [strLt_cons]
        simp [hgt]

theorem strLt_trans (a : List Char) : ∀ (b c : List Char),
    strLt a b = true → strLt b c = true → strLt a c = true := by
  induction a with
  | nil =>
    intro b c h1 h2
    cases b with
    | nil => exact absurd h1 (by rw [strLt]; simp)
    | cons y ys =>
      cases c with
      | nil => exact absurd h2 (by rw [strLt]; simp)
      | cons z zs => rfl
  | cons x xs ih =>
    intro b c h1 h2
    cases b with
    | nil => exact absurd h1 (by rw [strLt]; simp)
    | cons y ys =>
      cases c with
      | nil => exact absurd h2 (by rw [strLt]; simp)
      | cons z zs =>
        rw [strLt_cons] at h1 h2 ⊢
        simp only [Bool.or_eq_true, decide_eq_true_eq, Bool.and_eq_true, beq_iff_eq] at h1 h2 ⊢
        rcases h1 with h1 | ⟨h1e, h1r⟩
        · rcases h2 with h2 | ⟨h2e, h2r⟩
          · exact Or.inl (lt_trans h1 h2)
          · exact Or.inl (h2e ▸ h1)
        · rcases h2 with h2 | ⟨h2e, h2r⟩
          · exact Or.inl (h1e ▸ h2)
          · exact Or.inr ⟨h1e.trans h2e, ih ys zs h1r h2r⟩

theorem mem_insertDesc (x a : List Char) : ∀ (l : List (List Char)),
    (a ∈ insertDesc x l ↔ a = x ∨ a ∈ l) := by
  intro l
  induction l with
  | nil => simp [insertDesc]
  | cons y ys ih =>
    rw [insertDesc]
    by_cases hc : strLt y x = true
    · rw [if_pos hc]
      simp [List.mem_cons]
    · rw [if_neg hc]
      rw [List.mem_cons, ih, List.mem_cons]
      tauto

theorem mem_sortDesc (a : List Char) : ∀ (l : List (List Char)),
    (a ∈ sortDesc l ↔ a ∈ l) := by
  intro l
  induction l with
  | nil => simp [sortDesc]
  | cons y ys ih =>
    rw [sortDesc, mem_insertDesc, ih, List.mem_cons]

theorem nodup_insertDesc (x : List Char) : ∀ (l : List (List Char)),
    x ∉ l → l.Nodup → (insertDesc x l).Nodup := by
  intro l
  induction l with
  | nil => intro _ _; simp [insertDesc]
  | cons y ys ih =>
    intro hx hnd
    rw [insertDesc]
    by_cases hc : strLt y x = true
    · rw [if_pos hc]
      exact List.nodup_cons.mpr ⟨hx, hnd⟩
    · rw [if_neg hc]
      obtain ⟨hy, hys⟩ := List.nodup_cons.mp hnd
      refine List.nodup_cons.mpr ⟨?_, ih (fun hm => hx (List.mem_cons_of_mem _ hm)) hys⟩
      rw [mem_insertDesc]
      rintro (he | hm)
      · exact hx (he ▸ List.mem_cons_self _ _)
      · exact hy hm

theorem nodup_sortDesc : ∀ (l : List (List Char)), l.Nodup → (sortDesc l).Nodup := by
  intro l
  induction l with
  | nil => intro _; simp [sortDesc]
  | cons y ys ih =>
    intro hnd
    obtain ⟨hy, hys⟩ := List.nodup_cons.mp hnd
    rw [sortDesc]
    exact nodup_insertDesc y (sortDesc ys)
      (fun hm => hy ((mem_sortDesc y ys).mp hm)) (ih hys)

theorem sorted_insertDesc (x : List Char) : ∀ (l : List (List Char)),
    x ∉ l → l.Pairwise (fun a b => strLt b a = true) →
    (insertDesc x l).Pairwise (fun a b => strLt b a = true) := by
  intro l
  induction l with
  | nil => intro _ _; simp [insertDesc]
  | cons y ys ih =>
    intro hx hp
    obtain ⟨hy, hys⟩ := List.pairwise_cons.mp hp
    rw [insertDesc]
    by_cases hc : strLt y x = true
    · rw [if_pos hc]
      refine List.pairwise_cons.mpr ⟨?_, hp⟩
      intro z hz
      rcases List.mem_cons.mp hz with he | hm
      · exact he ▸ hc
      · exact strLt_trans z y x (hy z hm) hc
    · rw [if_neg hc]
      have hxy : x ≠ y := by
        intro he
        exact hx (he ▸ List.mem_cons_self _ _)
      have hxygt : strLt x y = true := by
        rcases strLt_total y x (fun he => hxy he.symm) with h | h
        · exact absurd h hc
        · exact h
      refine List.pairwise_cons.mpr ⟨?_, ih (fun hm => hx (List.mem_cons_of_mem _ hm)) hys⟩
      intro z hz
      rcases (mem_insertDesc x z ys).mp hz with he | hm
      · exact he ▸ hxygt
      · exact hy z hm

theorem sorted_sortDesc : ∀ (l : List (List Char)), l.Nodup →
    (sortDesc l).Pairwise (fun a b => strLt b a = true) := by
  intro l
  induction l with
  | nil => intro _; simp [sortDesc]
  | cons y ys ih =>
    intro hnd
    obtain ⟨hy, hys⟩ := List.nodup_cons.mp hnd
    rw [sortDesc]
    exact sorted_insertDesc y (sortDesc ys)
      (fun hm => hy ((mem_sortDesc y ys).mp hm)) (ih hys)

/-- C7 counterexample: a backup key created with the documented
<backup_prefix><ISO-timestamp>:<original_key> layout holds the ISO timestamp
2024-01-01T00:00:00, but list_backups returns "2024-01-01T00" — the key
split at its first two colons keeps only the date-and-hour field, not the
embedded ISO timestamp. -/
theorem C7_counterexample :
    StateManager.list_backups [("backup:2024-01-01T00:00:00:key1".data, "1".data)]
        ("backup:".data) = ["2024-01-01T00".data] ∧
      ("2024-01-01T00".data : List Char) ≠ "2024-01-01T00:00:00".data := by
  exact ⟨rfl, by decide⟩

/-- C7 (amended): list_backups returns, sorted descending in Python string
order and without duplicates, exactly the distinct second colon-delimited
fields of the keys matching backup_prefix followed by a star — for the
default "backup:" prefix and ISO timestamps this is the timestamp truncated
at its first colon (date and hour), not the full embedded timestamp. -/
theorem C7_list_backups (s : Store) (bpx : List Char) :
    (StateManager.list_backups s bpx).Pairwise (fun a b => strLt b a = true) ∧
    (StateManager.list_backups s bpx).Nodup ∧
    ∀ t, t ∈ StateManager.list_backups s bpx ↔
      ∃ k ∈ scanKeys s (bpx ++ ['*']),
        (if 2 ≤ (pySplit ':' 2 k).length then (pySplit ':' 2 k).get? 1 else none) =
          some t := by
  rw [StateManager.list_backups]
  refine ⟨sorted_sortDesc _ (List.nodup_dedup _), nodup_sortDesc _ (List.nodup_dedup _), ?_⟩
  intro t
  rw [mem_sortDesc, List.mem_dedup, List.mem_filterMap]
